import Mathlib

/-!
# A verification development for the HAC-D hearing-transcript analyzer

This file shallowly embeds the three Python modules of the repository
(`parse.py`, a line-oriented finite-state transcript parser; `preprocess.py`,
a block-oriented transcript parser; `analyze.py`, the tabular enrichment pass)
and proves properties of the embedding.

Strings are modelled as `List Char`; the corpus is plain ASCII government
text, so the ASCII readings of the regex classes `\s`, `\w`, `\d`, `[A-Z]`
are used throughout.  A file is modelled as the list of its lines without
their trailing `'\n'` (the sources read files line by line; wherever a
regex inspects the trailing newline the model reconstructs it explicitly).
Each Python regex is embedded as a dedicated total matcher whose search
order follows the backtracking order of the `re` engine; comments on each
matcher record the derivation from the regex.  Loops of the sources that
can run past end-of-file forever are modelled as `Option`-valued functions
returning `none` on the inputs where the source loop never terminates, and
the one list access of `parse.py` that can raise `IndexError`
(`tokens[-2]` on a one-element list) likewise propagates `none`.
-/

/-- Strings of the modelled programs: lists of (ASCII) characters. -/
abbrev Str := List Char

/-- Shorthand for string literals of the model. -/
def str (s : String) : Str := s.toList

/-- Python/`re` whitespace `\s` (ASCII): space, `\t`, `\n`, `\r`, `\x0b`, `\x0c`. -/
def isPySpace (c : Char) : Bool :=
  c = ' ' || c = '\t' || c = '\n' || c = '\r' || c = '\x0b' || c = '\x0c'

/-- `\d` (ASCII). -/
def isDigitCh (c : Char) : Bool := '0' ≤ c && c ≤ '9'

/-- `[A-Z]`. -/
def isUpperCh (c : Char) : Bool := 'A' ≤ c && c ≤ 'Z'

/-- `[a-z]`. -/
def isLowerCh (c : Char) : Bool := 'a' ≤ c && c ≤ 'z'

/-- `\w` (ASCII): letters, digits, underscore. -/
def isWordCh (c : Char) : Bool := isUpperCh c || isLowerCh c || isDigitCh c || c = '_'

/-- `[\w-]` (the class of `parse.py`'s speaker-title capture). -/
def isWordHy (c : Char) : Bool := isWordCh c || c = '-'

/-- `[\w\s-]` (the class of `parse.py`'s speaker-surname capture). -/
def isWordSpHy (c : Char) : Bool := isWordCh c || isPySpace c || c = '-'

/-- Python `str.strip()`: drop whitespace from both ends. -/
def pyStrip (s : Str) : Str :=
  ((s.dropWhile isPySpace).reverse.dropWhile isPySpace).reverse

/-- Python `a.startswith(b)` / literal matching at the head of a string. -/
def startsWith : Str → Str → Bool
  | _, [] => true
  | [], _ :: _ => false
  | c :: s, d :: t => c = d && startsWith s t

/-- Python `needle in hay` (substring containment). -/
def containsSub (needle : Str) : Str → Bool
  | [] => startsWith [] needle
  | c :: s => startsWith (c :: s) needle || containsSub needle s

/-- Python `s.upper()` (ASCII). -/
def pyUpper (s : Str) : Str :=
  s.map (fun c => if isLowerCh c then Char.ofNat (c.toNat - 32) else c)

/-- Python `s.split(sep)` for a one-character separator. -/
def pySplitOn (sep : Char) : Str → List Str
  | [] => [[]]
  | c :: s =>
    if c = sep then [] :: pySplitOn sep s
    else
      match pySplitOn sep s with
      | t :: ts => (c :: t) :: ts
      | [] => [[c]]

/-- Python `s.split()` (split on whitespace runs, dropping empty fields). -/
def pySplitWs (s : Str) : List Str :=
  match h : s.dropWhile isPySpace with
  | [] => []
  | c :: s' => (c :: s'.takeWhile (fun d => !isPySpace d))
      :: pySplitWs (s'.dropWhile (fun d => !isPySpace d))
termination_by s.length
decreasing_by
  have h1 := (List.dropWhile_sublist (l := s) isPySpace).length_le
  rw [h] at h1
  have h2 := (List.dropWhile_sublist (l := s') (fun d => !isPySpace d)).length_le
  simp only [List.length_cons] at h1
  omega

/-- Join a list of strings with single spaces, Python `" ".join(l)`. -/
def joinSp : List Str → Str
  | [] => []
  | [s] => s
  | s :: t :: ts => s ++ ' ' :: joinSp (t :: ts)

/-- Python `s.count(needle)` for a nonempty needle: count of non-overlapping
occurrences, scanning left to right.  (All needles in the sources are
nonempty literals; the model returns 0 for an empty needle.) -/
def countOccur (needle : Str) : Str → Nat
  | [] => 0
  | c :: s =>
    if needle ≠ [] ∧ startsWith (c :: s) needle then
      1 + countOccur needle (s.drop (needle.length - 1))
    else
      countOccur needle s
termination_by s => s.length
decreasing_by
  · simp only [List.length_cons]
    have := List.length_drop (needle.length - 1) s
    omega
  · simp

/-- One character satisfying `p`, or fail (a single-character regex class). -/
def chompOne (p : Char → Bool) : Str → Option Str
  | [] => none
  | c :: s => if p c then some s else none

/-- A nonempty maximal run of characters satisfying `p` (`p+` when the regex
continuation cannot start with a `p`-character; the derivations at each use
site justify taking the maximal run without backtracking). -/
def chompRun1 (p : Char → Bool) (s : Str) : Option Str :=
  if s.takeWhile p = [] then none else some (s.dropWhile p)

/-- A literal string. -/
def chompLit (lit : String) (s : Str) : Option Str :=
  if startsWith s (str lit) then some (s.drop (str lit).length) else none

/-- The first literal of `alts` that matches at the head of `s`, consumed.
(Used for regex alternations of pairwise prefix-incompatible literals,
where at most one branch can match.) -/
def dropAlt? (alts : List Str) (s : Str) : Option Str :=
  alts.findSome? (fun a => if startsWith s a then some (s.drop a.length) else none)

/-! ## The pattern library of `parse.py`

Each matcher embeds one of the module-level regexes, applied with
`re.match` to a single line (modelled without its trailing newline, so the
regex `$` is end-of-list). -/

/-- `DOCUMENT = r"^.*?DEPARTMENT OF DEFENSE APPROPRIATIONS FOR (\d+)$"`:
the lazy `.*?` scans for the leftmost occurrence of the literal followed by
a nonempty all-digit tail reaching the end of the line; the capture is that
digit tail. -/
def matchDocument : Str → Option Str
  | [] => none
  | c :: s =>
    let lit := str "DEPARTMENT OF DEFENSE APPROPRIATIONS FOR "
    if startsWith (c :: s) lit then
      let ds := (c :: s).drop lit.length
      if ds ≠ [] ∧ ds.all isDigitCh then some ds else matchDocument s
    else matchDocument s

/-- `COMMITTEE_BEGIN = r".*SUBCOMMITTEE ON.*"` under `re.match`: the literal
occurs somewhere in the line. -/
def isCommitteeBeginP (l : Str) : Bool := containsSub (str "SUBCOMMITTEE ON") l

/-- `COMMITTEE_END = r"^\s+NOTE:"`: leading whitespace (at least one
character; the greedy `\s+` takes the whole run, and `N` is not whitespace)
followed by the literal `NOTE:`. -/
def isCommitteeEndP (l : Str) : Bool :=
  (l.takeWhile isPySpace ≠ [] && startsWith (l.dropWhile isPySpace) (str "NOTE:"))

/-- The day-of-week alternatives of `HEARING`. -/
def dayAlts : List Str := ["Sun", "Mon", "Tue", "Wed", "Thu", "Fri", "Sat"].map str

/-- The month alternatives of `HEARING`. -/
def monthAlts : List Str :=
  ["Jan", "Feb", "Mar", "Apr", "May", "Jun",
   "Jul", "Aug", "Sep", "Oct", "Nov", "Dec"].map str

/-- `HEARING = r"^\s+?(Sun|Mon|Tue|Wed|Thu|Fri|Sat)\w+,\s(Jan|Feb|Mar|Apr|May|Jun|Jul|Aug|Sep|Oct|Nov|Dec)\w+\s\d+,\s\d+\.$"`.
The lazy `\s+?` must stop exactly at the whitespace run's end (the day
literals start with letters); each `\w+`/`\d+` is greedy and its
continuation (`,`, `\s` or `.`) is outside the class, so the maximal run is
the only candidate. -/
def matchesHearing (l : Str) : Bool :=
  (do
    let s ← chompRun1 isPySpace l
    let s ← dropAlt? dayAlts s
    let s ← chompRun1 isWordCh s
    let s ← chompLit "," s
    let s ← chompOne isPySpace s
    let s ← dropAlt? monthAlts s
    let s ← chompRun1 isWordCh s
    let s ← chompOne isPySpace s
    let s ← chompRun1 isDigitCh s
    let s ← chompLit "," s
    let s ← chompOne isPySpace s
    let s ← chompRun1 isDigitCh s
    let s ← chompLit "." s
    if s = [] then some () else none).isSome

/-- `WITNESS_BEGIN = r"^\s+WITNESS\w*$"` (parse.py): leading whitespace,
the literal, then only word characters up to the end of the line. -/
def matchesWitnessBeginP (l : Str) : Bool :=
  (do
    let s ← chompRun1 isPySpace l
    let s ← chompLit "WITNESS" s
    if s.all isWordCh then some () else none).isSome

/-- `WITNESS_END = r"^\s{8,}"`: at least eight leading whitespace characters. -/
def matchesWitnessEndP (l : Str) : Bool :=
  8 ≤ (l.takeWhile isPySpace).length

/-- The bracketed tag `\[\w+\]` of `SPEAKER`; returns the remainder.  (The
greedy `\w+` stops at the first non-word character, which must be `]`.) -/
def parseTag : Str → Option Str
  | '[' :: s => do
    let s ← chompRun1 isWordCh s
    chompLit "]" s
  | _ => none

/-- `SPEAKER = r"^\s{4,}([A-Z][\w-]+)\.?\s([A-Z][\w\s-]+)\s?(\[\w+\])?\.(.+)$"`,
returning groups 1, 2 and 4 (the only groups `parse.py` reads).

Backtracking derivation: `\s{4,}` must take the whole leading whitespace
run (shorter choices leave a whitespace where `[A-Z]` is required); group 1
must take the maximal `[\w-]` run (shorter choices leave a word character
where `\.?\s` must match); after group 2's maximal `[\w\s-]` run the next
character is outside that class, hence not whitespace, so `\s?` always
matches empty, and a shorter group 2 puts `\[`/`\.` at an in-class
character where both fail — except the run's last position, which reaches
the same continuation position and therefore succeeds only when the
maximal choice already succeeds.  The tag's `\w+` is determined as in
`parseTag`. -/
def matchSpeaker (l : Str) : Option (Str × Str × Str) := do
  if (l.takeWhile isPySpace).length < 4 then none else
  match l.dropWhile isPySpace with
  | [] => none
  | c :: s1 =>
    if !isUpperCh c then none else
    let run := s1.takeWhile isWordHy
    if run = [] then none else
    let g1 : Str := c :: run
    let s2 := s1.dropWhile isWordHy
    let s3? : Option Str :=
      match s2 with
      | '.' :: d :: rest => if isPySpace d then some rest else none
      | d :: rest => if isPySpace d then some rest else none
      | [] => none
    match s3? with
    | none => none
    | some s3 =>
      match s3 with
      | [] => none
      | c2 :: s4 =>
        if !isUpperCh c2 then none else
        let run2 := s4.takeWhile isWordSpHy
        if run2 = [] then none else
        let g2 : Str := c2 :: run2
        let s5 := s4.dropWhile isWordSpHy
        match s5 with
        | '[' :: _ =>
          match parseTag s5 with
          | some ('.' :: g4) => if g4 = [] then none else some (g1, g2, g4)
          | _ => none
        | '.' :: g4 => if g4 = [] then none else some (g1, g2, g4)
        | _ => none

/-! ## The line-state segmenter (`parse.py`, `parse_document`)

The output dictionary is modelled structurally: `header` holds the
optional `year` entry; each hearing dictionary's conditionally-created
keys `date`, `witnesses`, `speakers` are an `Option` and two lists whose
key is present exactly when the option is `some` / the list nonempty
(the source creates those keys on first assignment only). -/

/-- A speaker-turn dictionary of `parse.py` (`title`, `surname`, `remarks`). -/
structure PSpeaker where
  title : Str
  surname : Str
  remarks : Str
deriving Repr, DecidableEq

/-- A hearing dictionary of `parse.py`. -/
structure PHearing where
  date : Option Str
  witnesses : List Str
  speakers : List PSpeaker
deriving Repr, DecidableEq

/-- A committee-member dictionary of `parse.py` (`name`, `district`). -/
structure PMember where
  name : Str
  district : Str
deriving Repr, DecidableEq

/-- The output dictionary of `parse_document`. -/
structure ParseOut where
  year : Option Str
  members : List PMember
  hearings : List PHearing
deriving Repr, DecidableEq

/-- The scanner states of `parse_document`'s `while` loop. -/
inductive PState where
  | START | DOCUMENT | COMMITTEE | HEARING | WITNESSES | CONTENT | SPEAKER
deriving Repr, DecidableEq

/-- The loop state: scanner state plus the output built so far. -/
structure PSt where
  state : PState
  out : ParseOut
deriving Repr, DecidableEq

/-- Apply `f` to the last element of a list (`output["hearings"][-1]`-style
mutation; the hearings list is nonempty throughout the source). -/
def updLast {α : Type} (f : α → α) (l : List α) : List α :=
  match l.getLast? with
  | some a => l.dropLast ++ [f a]
  | none => []

/-- `re.split(r"(?:\s{2,}|\t{2,})", s)`: split on maximal whitespace runs of
length at least two (the greedy `\s{2,}` consumes a whole run; `\t{2,}` is
subsumed by `\s{2,}`). -/
def splitWs2 : Str → List Str
  | [] => [[]]
  | c :: s =>
    if isPySpace c && (match s with | d :: _ => isPySpace d | [] => false) then
      [] :: splitWs2 (s.dropWhile isPySpace)
    else
      match splitWs2 s with
      | t :: ts => (c :: t) :: ts
      | [] => [[c]]
termination_by s => s.length
decreasing_by
  · have := (List.dropWhile_sublist (l := s) isPySpace).length_le
    simp only [List.length_cons]
    omega
  · simp

/-- The second-to-last element (`tokens[-2]`), if the list has at least two
elements. -/
def secondLast? {α : Type} (l : List α) : Option α :=
  match l.reverse with
  | _ :: b :: _ => some b
  | _ => none

/-- One member field of a committee line: `tokens = member.split(",")`;
district from `tokens[-2]` when `"Chair" in tokens[-1]`, else from
`tokens[-1]`.  `tokens[-2]` on a one-element list raises `IndexError` in
the source; the model returns `none` there. -/
def parseCommitteeMember (member : Str) : Option PMember :=
  let tokens := pySplitOn ',' member
  let last := tokens.getLastD []
  if containsSub (str "Chair") last then
    match secondLast? tokens with
    | some d => some ⟨pyStrip (tokens.headD []), pyStrip d⟩
    | none => none
  else
    some ⟨pyStrip (tokens.headD []), pyStrip last⟩

/-- One line processed in the `COMMITTEE` state:
`filter(None, re.split("(?:\s{2,}|\t{2,})", line.strip()))`, then each
member parsed; a raising member aborts the parse (`none`). -/
def parseCommitteeLine (l : Str) : Option (List PMember) :=
  let group := (splitWs2 (pyStrip l)).filter (· ≠ ([] : Str))
  group.mapM parseCommitteeMember

/-- The empty hearing dictionary `{}`. -/
def emptyHearing : PHearing := ⟨none, [], []⟩

/-- One iteration of `parse_document`'s loop on one line. -/
def pstep (st : PSt) (l : Str) : Option PSt :=
  match st.state with
  | .START =>
    match matchDocument l with
    | some y => some ⟨.DOCUMENT, { st.out with year := some y }⟩
    | none => some st
  | .DOCUMENT =>
    if isCommitteeBeginP l then
      some ⟨.COMMITTEE, st.out⟩
    else if matchesHearing l then
      some ⟨.HEARING,
        { st.out with
          hearings := updLast (fun h => { h with date := some (pyStrip l) }) st.out.hearings }⟩
    else some st
  | .COMMITTEE =>
    if isCommitteeEndP l then
      some ⟨.DOCUMENT, st.out⟩
    else
      match parseCommitteeLine l with
      | some ms => some ⟨.COMMITTEE, { st.out with members := st.out.members ++ ms }⟩
      | none => none
  | .HEARING =>
    if matchesWitnessBeginP l then some ⟨.WITNESSES, st.out⟩ else some st
  | .WITNESSES =>
    if matchesWitnessEndP l then
      some ⟨.CONTENT, st.out⟩
    else if pyStrip l ≠ [] then
      some ⟨.WITNESSES,
        { st.out with
          hearings := updLast (fun h => { h with witnesses := h.witnesses ++ [pyStrip l] })
            st.out.hearings }⟩
    else some st
  | .CONTENT =>
    if matchesHearing l then
      some ⟨.HEARING,
        { st.out with
          hearings := updLast (fun h => { h with date := some (pyStrip l) })
            (st.out.hearings ++ [emptyHearing]) }⟩
    else
      match matchSpeaker l with
      | some (g1, g2, g4) =>
        some ⟨.SPEAKER,
          { st.out with
            hearings := updLast
              (fun h => { h with speakers := h.speakers ++ [⟨g1, g2, pyStrip g4⟩] })
              st.out.hearings }⟩
      | none => some st
  | .SPEAKER =>
    if pyStrip l = [] then
      some ⟨.CONTENT, st.out⟩
    else
      match matchSpeaker l with
      | some (g1, g2, g4) =>
        some ⟨.SPEAKER,
          { st.out with
            hearings := updLast
              (fun h => { h with speakers := h.speakers ++ [⟨g1, g2, pyStrip g4⟩] })
              st.out.hearings }⟩
      | none =>
        some ⟨.SPEAKER,
          { st.out with
            hearings := updLast
              (fun h =>
                if h.speakers ≠ [] then
                  { h with
                    speakers := updLast
                      (fun sp => { sp with remarks := sp.remarks ++ ' ' :: pyStrip l })
                      h.speakers }
                else h)
              st.out.hearings }⟩

/-- The initial loop state of `parse_document`:
`{"header": {}, "members": [], "hearings": [{}]}` in state `START`. -/
def initPSt : PSt := ⟨.START, ⟨none, [], [emptyHearing]⟩⟩

/-- Fold a fallible step over the lines. -/
def foldSteps {σ : Type} (step : σ → Str → Option σ) (lines : List Str) (st : σ) :
    Option σ :=
  lines.foldl (fun acc l => acc.bind (fun s => step s l)) (some st)

/-- `parse_document`, as a function of the input file's lines. -/
def parseDocument (lines : List Str) : Option ParseOut :=
  (foldSteps pstep lines initPSt).map PSt.out

/-! ## The topic-block segmenter (`preprocess.py`)

The buffers handed to the multi-line regexes carry their newlines, so the
model rebuilds them from the lines (`readline` keeps the trailing `'\n'`;
the model assumes the file ends in a newline, the convention of the
corpus).  `finditer` is modelled by a probe that attempts a match at each
successive position, resuming after each match's consumed end. -/

/-- The character at a position satisfies the test (false past the end). -/
def testAt (p : Char → Bool) (s : Str) (i : Nat) : Bool :=
  match s.get? i with
  | some c => p c
  | none => false

/-- The character at a position is the given one. -/
def atCh (s : Str) (i : Nat) (c : Char) : Bool := decide (s.get? i = some c)

/-- `s[i:j]` (clipped at the ends, as in Python). -/
def sliceStr (s : Str) (i j : Nat) : Str := (s.drop i).take (j - i)

/-- Length of the maximal run of `p`-characters starting at `i`. -/
def runLen (p : Char → Bool) (s : Str) (i : Nat) : Nat :=
  ((s.drop i).takeWhile p).length

/-- Try `f k, f (k-1), …, f 1` (a greedy `+`-quantifier's backtracking
order over the split point). -/
def descendSome {α : Type} : Nat → (Nat → Option α) → Option α
  | 0, _ => none
  | k + 1, f => f (k + 1) <|> descendSome k f

/-- Try `f 0, f 1, …, f (k-1)` (a lazy quantifier's backtracking order). -/
def ascendSome {α : Type} : Nat → (Nat → Option α) → Option α
  | 0, _ => none
  | k + 1, f => f 0 <|> ascendSome k (fun i => f (i + 1))

/-- The scanning loop of `re.finditer`: attempt a match at each position;
after a match over `[pos, e)` resume at `e` (or `pos + 1` for an empty
match).  `fuel` starts at `n + 1` so that every position of the subject is
probed (each step advances the position by at least one; the matchers
reject positions past the end). -/
def reScan {γ : Type} (matchAt : Nat → Option (Nat × γ)) :
    Nat → Nat → List (Nat × Nat × γ)
  | 0, _ => []
  | fuel + 1, pos =>
    match matchAt pos with
    | some (e, g) => (pos, e, g) :: reScan matchAt fuel (max e (pos + 1))
    | none => reScan matchAt fuel (pos + 1)

/-- All matches of `matchAt` over a subject of length `n`, in scan order,
as `(start, end, captures)` triples. -/
def reFindIter {γ : Type} (matchAt : Nat → Option (Nat × γ)) (n : Nat) :
    List (Nat × Nat × γ) :=
  reScan matchAt (n + 1) 0

/-- `RE_COMMITTEE_BEGIN = r"^\s+SUBCOMMITTEE ON DEFENSE$"` against one line. -/
def matchesPreCommitteeBegin (l : Str) : Bool :=
  (do
    let s ← chompRun1 isPySpace l
    let s ← chompLit "SUBCOMMITTEE ON DEFENSE" s
    if s = [] then some () else none).isSome

/-- `RE_COMMITTE_END = r"^\s{2}$"`: a line of exactly two whitespace
characters. -/
def matchesPreCommitteeEnd (l : Str) : Bool :=
  l.length = 2 && l.all isPySpace

/-- `RE_WITNESS_BEGIN = r"^\s+WITNESSES$"` against one line. -/
def matchesPreWitnessBegin (l : Str) : Bool :=
  (do
    let s ← chompRun1 isPySpace l
    let s ← chompLit "WITNESSES" s
    if s = [] then some () else none).isSome

/-- A line followed by its newline, as `readline` returns it. -/
def joinLines (ls : List Str) : Str := (ls.map (fun l => l ++ ['\n'])).flatten

/-- The buffering loop after the committee begin-marker: starting from the
begin line, while the current line does not match the end pattern, read the
next line and append it to the buffer (so the end line itself is buffered).
`none` models the source's non-termination when the file ends first:
`readline` then returns `""` forever, which never matches `^\s{2}$`. -/
def collectCommittee (cur : Str) (rest : List Str) (acc : Str) :
    Option (Str × List Str) :=
  if matchesPreCommitteeEnd cur then some (acc, rest)
  else
    match rest with
    | [] => none
    | l :: rest' => collectCommittee l rest' (acc ++ l ++ ['\n'])

/-- The scan for the committee begin-marker.  `none` models the source's
non-termination when no line ever matches (the `while True` loop reads
`""` forever at end-of-file). -/
def scanCommittee : List Str → Option (Str × List Str)
  | [] => none
  | l :: rest =>
    if matchesPreCommitteeBegin l then collectCommittee l rest []
    else scanCommittee rest

/-- The scan for the witness begin-marker; on a match one line is skipped,
then lines are buffered until the first empty line (`^$` also matches the
`""` returned at end-of-file, so this inner loop always terminates).
`none` again models the unterminated outer scan. -/
def scanWitness : List Str → Option (List Str × List Str)
  | [] => none
  | l :: rest =>
    if matchesPreWitnessBegin l then
      match rest with
      | [] => some ([], [])
      | _ :: rest2 =>
        let buf := rest2.takeWhile (fun x => x ≠ ([] : Str))
        let rem := rest2.dropWhile (fun x => x ≠ ([] : Str))
        some (buf, rem.tail)
    else scanWitness rest

/-! ### `RE_COMMITTEE_MEMBERS = r"(?:^\s|\b)\s+?([^,]*?),+?([^,]*?),*?([^,]*?)(?=\t|\n)"`

Matched with `MULTILINE | DOTALL` over the whole buffered block.  The
negated class `[^,]` crosses newlines regardless of `DOTALL`.  Derivations:
the lazy `\s+?` takes one character (any longer take is subsumed by group 1,
which admits every whitespace character, so a longer take can never succeed
where the minimal one fails); each lazy `[^,]*?` can end only at a comma or
at the lookahead, so the candidate split points are bounded by the comma
runs, enumerated below in the engine's order (earlier quantifier minimal
first, later quantifiers varying first). -/

/-- `^` of a `MULTILINE` pattern: start of the subject or just after `'\n'`. -/
def lineStart (s : Str) (i : Nat) : Bool :=
  decide (i = 0) || atCh s (i - 1) '\n'

/-- The prefix `(?:^\s|\b)\s+?` at `i`: returns the position after it.
Branch `^\s` needs a line start and two whitespace characters (one for
`^\s`, one for the minimal `\s+?`); branch `\b` (tried when the first
fails) needs a word character before a whitespace character.  When `^`
holds the previous character is `'\n'` or absent, never a word character,
so the two branches are mutually exclusive. -/
def cmStart? (s : Str) (i : Nat) : Option Nat :=
  if lineStart s i && testAt isPySpace s i && testAt isPySpace s (i + 1) then
    some (i + 2)
  else if decide (0 < i) && testAt isWordCh s (i - 1) && testAt isPySpace s i then
    some (i + 1)
  else none

/-- The first index `j ≥ i` with `p (s[j])`. -/
def firstIdxFrom (p : Char → Bool) (s : Str) (i : Nat) : Option Nat :=
  ((s.drop i).findIdx? p).map (· + i)

/-- `([^,]*?),*?([^,]*?)(?=\t|\n)` from position `u` (after the consumed
comma run): returns `(a, b, e)` — group 2 is `[u, a)`, the `,*?` commas
are `[a, b)`, group 3 is `[b, e)`, and `s[e]` is a tab or newline.  Group 2
is minimised first, then the comma count; group 3's end is then forced: the
first tab/newline at or after `b`, provided no comma precedes it. -/
def cmTail (s : Str) (u : Nat) : Option (Nat × Nat × Nat) :=
  ascendSome (runLen (fun c => !decide (c = ',')) s u + 1) (fun da =>
    let a := u + da
    ascendSome (runLen (fun c => decide (c = ',')) s a + 1) (fun db =>
      let b := a + db
      match firstIdxFrom (fun c => c = '\t' || c = '\n') s b with
      | some e =>
        if e - b ≤ runLen (fun c => !decide (c = ',')) s b then some (a, b, e)
        else none
      | none => none))

/-- The whole member pattern at position `i`: prefix, then group 1 up to
the first comma (a lazy `[^,]*?` before `,+?` can end only there), a lazy
comma run (at least one), and the tail.  Returns the match end and the
three captures. -/
def cmMatchAt (s : Str) (i : Nat) : Option (Nat × (Str × Str × Str)) := do
  match cmStart? s i with
  | none => none
  | some p =>
    match firstIdxFrom (fun c => c = ',') s p with
    | none => none
    | some c1 =>
      ascendSome (runLen (fun c => decide (c = ',')) s c1) (fun dk =>
        let k := dk + 1
        (cmTail s (c1 + k)).map (fun (a, b, e) =>
          (e, (sliceStr s p c1, sliceStr s (c1 + k) a, sliceStr s b e))))

/-- A committee-member dictionary of `preprocess.py`. -/
structure CMember where
  name : Str
  district : Str
  title : Str
deriving Repr, DecidableEq

/-- All committee members of the buffered block, fields stripped. -/
def cmFindAll (s : Str) : List CMember :=
  (reFindIter (cmMatchAt s) s.length).map
    (fun m => ⟨pyStrip m.2.2.1, pyStrip m.2.2.2.1, pyStrip m.2.2.2.2⟩)

/-- `RE_WITNESSES = r"^([^,]+?),(.+?)(?=\n)"` (`MULTILINE | DOTALL`) at
position `i`: a line start, a nonempty comma-free group up to the first
comma, the comma, then a nonempty lazy group ending at the first newline at
or after two characters past the comma (`.` crosses newlines under
`DOTALL`; the lookahead stops at the first `'\n'`). -/
def witMatchAt (s : Str) (i : Nat) : Option (Nat × (Str × Str)) :=
  if !lineStart s i then none
  else if atCh s i ',' then none
  else
    match firstIdxFrom (fun c => c = ',') s i with
    | none => none
    | some c =>
      match firstIdxFrom (fun c => c = '\n') s (c + 2) with
      | none => none
      | some e => some (e, (sliceStr s i c, sliceStr s (c + 1) e))

/-- A witness dictionary of `preprocess.py`. -/
structure PWitness where
  name : Str
  title : Str
deriving Repr, DecidableEq

/-- All witnesses of the buffered block, fields stripped. -/
def witFindAll (s : Str) : List PWitness :=
  (reFindIter (witMatchAt s) s.length).map (fun m => ⟨pyStrip m.2.2.1, pyStrip m.2.2.2⟩)

/-- The class `[0-9A-Z\s\.\(\)\n\-,]` of `RE_CONTENT_BLOCKS`' heading. -/
def isClass1 (c : Char) : Bool :=
  isDigitCh c || isUpperCh c || isPySpace c ||
    c = '.' || c = '(' || c = ')' || c = '-' || c = ','

/-- The class `[0-9A-Z\s\.\(\\)\-,]` of `RE_CONTENT_BLOCKS`' lookahead
(note the escaped backslash: the class contains `'\\'` and a plain `')'`). -/
def isClass2 (c : Char) : Bool :=
  isDigitCh c || isUpperCh c || isPySpace c ||
    c = '.' || c = '(' || c = '\\' || c = ')' || c = '-' || c = ','

/-- The lookahead `(?=\s+[0-9A-Z\s\.\(\\)\-,]+\n{2})` at position `e`: a
zero-width assertion, so only the existence of a split matters; `\s+` can
only take whitespace, so its length ranges over the whitespace run. -/
def lookaheadCB (s : Str) (e : Nat) : Bool :=
  let r := runLen isPySpace s e
  (List.range r).any (fun da =>
    let a := da + 1
    let c2 := runLen isClass2 s (e + a)
    (List.range c2).any (fun db =>
      let b := db + 1
      atCh s (e + a + b) '\n' && atCh s (e + a + b + 1) '\n'))

/-- `RE_CONTENT_BLOCKS = r"(\n{2}\s+[0-9A-Z\s\.\(\)\n\-,]+\n{2})(.+?)(?=\s+[0-9A-Z\s\.\(\\)\-,]+\n{2})"`
(`MULTILINE | DOTALL`) at position `i`: two newlines, a greedy whitespace
run split, a greedy heading-class run split, two newlines (backtracking
over both split points, longest first), then the lazy `(.+?)` body grown
one character at a time until the lookahead holds.  Returns the match end,
the heading capture (group 1) and the body capture (group 2). -/
def matchCB (s : Str) (i : Nat) : Option (Nat × (Str × Str)) :=
  if atCh s i '\n' && atCh s (i + 1) '\n' then
    descendSome (runLen isPySpace s (i + 2)) (fun a =>
      descendSome (runLen isClass1 s (i + 2 + a)) (fun b =>
        if atCh s (i + 2 + a + b) '\n' && atCh s (i + 2 + a + b + 1) '\n' then
          ascendSome (s.length - (i + 2 + a + b + 2)) (fun de =>
            if lookaheadCB s (i + 2 + a + b + 2 + de + 1) then
              some (i + 2 + a + b + 2 + de + 1,
                (sliceStr s i (i + 2 + a + b + 2),
                  sliceStr s (i + 2 + a + b + 2) (i + 2 + a + b + 2 + de + 1)))
            else none)
        else none))
  else none

/-- A content block: its extent in the content region and its two captures. -/
structure CBlock where
  start : Nat
  stop : Nat
  heading : Str
  body : Str
deriving Repr, DecidableEq

/-- All content blocks of the content region, in scan order. -/
def cbFindAll (s : Str) : List CBlock :=
  (reFindIter (matchCB s) s.length).map (fun m => ⟨m.1, m.2.1, m.2.2.1, m.2.2.2⟩)

/-- The honorific alternatives of `RE_SPEAKERS` (tried in this order; they
are pairwise prefix-incompatible, so at most one matches). -/
def honAlts : List Str := ["Mr.", "Mrs.", "Ms.", "General", "Secretary"].map str

/-- The first alternative matching at position `i`, as its length. -/
def dropAltAt? (alts : List Str) (s : Str) (i : Nat) : Option Nat :=
  alts.findSome? (fun a => if startsWith (s.drop i) a then some a.length else none)

/-- The lookahead `(?=(\n{2,}|\s{4,}\[|\s{4,}(Mr\.|Mrs\.|Ms\.|General|Secretary)\s[\w-]+\.))`
at position `e`.  In the second and third branches the greedy `\s{4,}` must
take the whole whitespace run (the following `[`/honorific starts with a
non-whitespace character). -/
def lookaheadSp (s : Str) (e : Nat) : Bool :=
  (atCh s e '\n' && atCh s (e + 1) '\n') ||
  (let r := runLen isPySpace s e
   (decide (4 ≤ r) && atCh s (e + r) '[') ||
   (decide (4 ≤ r) &&
    (match dropAltAt? honAlts s (e + r) with
     | some k =>
       testAt isPySpace s (e + r + k) &&
       (let w := runLen isWordHy s (e + r + k + 1)
        decide (1 ≤ w) && atCh s (e + r + k + 1 + w) '.')
     | none => false)))

/-- The greedy tag star `(\s\[\w+\])*` of `RE_SPEAKERS` from position `q`:
consume complete `\s\[\w+\]` groups while they match (each begins with a
whitespace where the following `\.` cannot match, so fewer iterations never
help), returning the end position. -/
def spTags (s : Str) (q : Nat) : Nat :=
  if h : testAt isPySpace s q = true ∧ s.get? (q + 1) = some '[' ∧
      1 ≤ runLen isWordCh s (q + 2) ∧
      s.get? (q + 2 + runLen isWordCh s (q + 2)) = some ']' then
    spTags s (q + 3 + runLen isWordCh s (q + 2))
  else q
termination_by s.length - q
decreasing_by
  have h2 := h.2.2.2
  generalize hw : runLen isWordCh s (q + 2) = w at h2 ⊢
  have hlt : q + 2 + w < s.length := by
    by_contra hge
    rw [List.get?_eq_none.mpr (by omega)] at h2
    exact absurd h2 (by simp)
  omega

/-- `RE_SPEAKERS = r"(?<=\s{4})(Mr\.|Mrs\.|Ms\.|General|Secretary)\s([\w-]+)(\s\[\w+\])*\.(.*?)(?=(…))"`
(`MULTILINE | DOTALL`) at position `i`: a zero-width look-behind of four
whitespace characters, an honorific, one whitespace, the greedy name run
(its continuation `\s`/`\.` lies outside `[\w-]`, so the maximal run is the
only candidate), the tag star, a period, then the lazy `(.*?)` remark grown
from the empty string until the lookahead holds.  Returns the match end and
groups 1, 2 and 4. -/
def matchSp (s : Str) (i : Nat) : Option (Nat × (Str × Str × Str)) :=
  if i < 4 then none
  else if !(sliceStr s (i - 4) i).all isPySpace || !decide ((sliceStr s (i - 4) i).length = 4) then
    none
  else
    match dropAltAt? honAlts s i with
    | none => none
    | some k =>
      if !testAt isPySpace s (i + k) then none
      else
        let nr := runLen isWordHy s (i + k + 1)
        if nr = 0 then none
        else
          let q := spTags s (i + k + 1 + nr)
          if !atCh s q '.' then none
          else
            ascendSome (s.length + 1 - (q + 1)) (fun de =>
              let e := q + 1 + de
              if lookaheadSp s e then
                some (e, (sliceStr s i (i + k), sliceStr s (i + k + 1) (i + k + 1 + nr),
                  sliceStr s (q + 1) e))
              else none)

/-- All speaker matches of a block body, in scan order: `(title, name,
raw remark)`. -/
def spFindAll (s : Str) : List (Str × Str × Str) :=
  (reFindIter (matchSp s) s.length).map (fun m => m.2.2)

/-- `re.sub(r"\s+", " ", s)`: collapse each whitespace run to one space. -/
def collapseWs : Str → Str
  | [] => []
  | c :: s =>
    if isPySpace c then ' ' :: collapseWs (s.dropWhile isPySpace)
    else c :: collapseWs s
termination_by s => s.length
decreasing_by
  · have := (List.dropWhile_sublist (l := s) isPySpace).length_le
    simp only [List.length_cons]; omega
  · simp

/-- `s.translate(str.maketrans("", "", "\r\n\t"))`. -/
def removeRNT (s : Str) : Str :=
  s.filter (fun c => !(c = '\r' || c = '\n' || c = '\t'))

/-- A content entry of `preprocess.py`'s output. -/
structure CEntry where
  topic : Str
  title : Str
  name : Str
  word_count : Nat
  remarks : Str
deriving Repr, DecidableEq

/-- The output dictionary of `preprocess_document`. -/
structure PreOut where
  committee : List CMember
  witnesses : List PWitness
  content : List CEntry
deriving Repr, DecidableEq

/-- `preprocess_document`, as a function of the input file's lines.  `none`
models the two scans that never terminate when their begin-marker (or the
committee end-marker) is missing from the rest of the file. -/
def preprocessDocument (lines : List Str) : Option PreOut := do
  let (cbuf, rest1) ← scanCommittee lines
  let committee := cmFindAll cbuf
  let (wlines, rest2) ← scanWitness rest1
  let witnesses := witFindAll (joinLines wlines)
  let ctext := joinLines rest2
  let content := (cbFindAll ctext).flatMap (fun b =>
    let topic := collapseWs (pyStrip b.heading)
    (spFindAll b.body).map (fun g =>
      let remarks := joinSp (pySplitWs (removeRNT g.2.2))
      ⟨topic, pyStrip g.1, pyStrip g.2.1, (pySplitWs remarks).length, remarks⟩))
  pure ⟨committee, witnesses, content⟩

/-! ## The enrichment pass (`analyze.py`)

`analyze` consumes the JSON written by `parse.py`: hearings may lack the
`witnesses` or `speakers` keys (modelled as `Option`), and such hearings
are skipped.  The `date` and `header.year` fields are read unconditionally
for every processed hearing, so the model carries them as plain fields.
The sentiment pair (`polarity`, `subjectivity`) is computed by an external
library on floating-point numbers and is outside this embedding (the spec
treats the sentiment scorer as an opaque black box).  The pandas
`str.contains` tests are modelled as substring containment: the applied
patterns are uppercased surnames captured by `[A-Z][\w\s-]+`, which contain
no regex metacharacters. -/

/-- A speaker turn as read from the parsed JSON. -/
structure ATurn where
  title : Str
  surname : Str
  remarks : Str
deriving Repr, DecidableEq

/-- A hearing as read from the parsed JSON; `none` models an absent key. -/
structure AHearing where
  date : Str
  witnesses : Option (List Str)
  speakers : Option (List ATurn)
deriving Repr, DecidableEq

/-- The parsed JSON input of `analyze`. -/
structure AData where
  year : Str
  members : List PMember
  hearings : List AHearing
deriving Repr, DecidableEq

/-- One row of the output table (without the external sentiment pair). -/
structure ARow where
  year : Str
  date : Str
  title : Str
  surname : Str
  role : Str
  district : Option Str
  district_mentions : Nat
  word_count : Nat
  question_count : Nat
  remarks : Str
deriving Repr, DecidableEq

/-- `"WITNESS" if df_witnesses.name.str.contains(s.upper()).any() else "MEMBER"`. -/
def roleOf (witnessNames : List Str) (surname : Str) : Str :=
  if witnessNames.any (fun w => containsSub (pyUpper surname) w) then str "WITNESS"
  else str "MEMBER"

/-- `df_members[df_members.name.str.contains(s.upper())].district.values[0]`
if any name matches, else `None`: the district of the first matching
committee record. -/
def districtOf (members : List PMember) (surname : Str) : Option Str :=
  (members.find? (fun m => containsSub (pyUpper surname) m.name)).map (·.district)

/-- `r.count("my district") + r.count("my state") + r.count("my constituents") + r.count("I represent")`. -/
def districtMentions (r : Str) : Nat :=
  countOccur (str "my district") r + countOccur (str "my state") r +
    countOccur (str "my constituents") r + countOccur (str "I represent") r

/-- One output row for one speaker turn of one hearing. -/
def mkRow (year : Str) (members : List PMember) (witnessNames : List Str)
    (date : Str) (t : ATurn) : ARow :=
  ⟨year, date, t.title, t.surname, roleOf witnessNames t.surname,
    districtOf members t.surname, districtMentions t.remarks,
    (pySplitWs t.remarks).length, countOccur (str "?") t.remarks, t.remarks⟩

/-- The per-hearing body of `analyze`'s loop: hearings missing the
`witnesses` key or the `speakers` key are skipped (`continue`). -/
def processHearing (year : Str) (members : List PMember) (h : AHearing) :
    Option (List ARow) :=
  match h.witnesses, h.speakers with
  | some ws, some sps => some (sps.map (mkRow year members ws h.date))
  | _, _ => none

/-- `analyze`, as a function of the parsed JSON.  `pd.concat` raises on an
empty list of frames, modelled as `none`. -/
def analyze (d : AData) : Option (List ARow) :=
  match d.hearings.filterMap (processHearing d.year d.members) with
  | [] => none
  | dfs => some dfs.flatten

/-- A speaker turn carrying the derived attribution fields (`role`,
`district` as DataFrame columns; `none` = column not yet created). -/
structure TurnAttr where
  title : Str
  surname : Str
  remarks : Str
  role : Option Str
  district : Option (Option Str)
deriving Repr, DecidableEq

/-- The attribution assignment of `analyze.py` (lines 71–78) on one turn:
overwrite the `role` and `district` fields from the turn's surname and the
two rosters. -/
def attributeTurn (witnessNames : List Str) (members : List PMember)
    (t : TurnAttr) : TurnAttr :=
  { t with
    role := some (roleOf witnessNames t.surname)
    district := some (districtOf members t.surname) }

/-- A hearing of a document whose turns carry attribution fields. -/
structure AHearingAttr where
  date : Str
  witnesses : Option (List Str)
  speakers : Option (List TurnAttr)
deriving Repr, DecidableEq

/-- A document whose turns carry attribution fields. -/
structure ADocAttr where
  year : Str
  members : List PMember
  hearings : List AHearingAttr
deriving Repr, DecidableEq

/-- The Speaker Attribution Assembler as a finishing pass over a document:
every turn of every hearing receives `role`/`district` computed from its
surname, the hearing's witness roster and the document's committee roster
(the rosters `analyze.py` uses). -/
def attributeDocument (d : ADocAttr) : ADocAttr :=
  { d with
    hearings := d.hearings.map (fun h =>
      { h with
        speakers := h.speakers.map (fun sps =>
          sps.map (attributeTurn (h.witnesses.getD []) d.members)) }) }

/-! ## The serialized output shape (`save_output` / `json.dump`)

The output dictionaries are serialized as JSON; the model mirrors the
dictionaries' key structure (keys in insertion order; the conditional keys
of a hearing dictionary are present exactly when they were assigned). -/

/-- A JSON value. -/
inductive JVal where
  | s (v : Str)
  | n (v : Nat)
  | null
  | arr (l : List JVal)
  | obj (l : List (String × JVal))

/-- The keys of a top-level JSON object. -/
def topKeys : JVal → List String
  | .obj l => l.map Prod.fst
  | _ => []

/-- A speaker dictionary of `parse.py`, serialized. -/
def speakerToJson (sp : PSpeaker) : JVal :=
  .obj [("title", .s sp.title), ("surname", .s sp.surname), ("remarks", .s sp.remarks)]

/-- A hearing dictionary of `parse.py`, serialized: `date` is created when
the hearing opens, `witnesses`/`speakers` on their first append. -/
def hearingToJson (h : PHearing) : JVal :=
  .obj ((match h.date with | some d => [("date", JVal.s d)] | none => []) ++
    (if h.witnesses = [] then [] else [("witnesses", .arr (h.witnesses.map .s))]) ++
    (if h.speakers = [] then []
     else [("speakers", .arr (h.speakers.map speakerToJson))]))

/-- The output document of `parse.py`, serialized. -/
def parseToJson (o : ParseOut) : JVal :=
  .obj [("header", .obj (match o.year with | some y => [("year", .s y)] | none => [])),
    ("members", .arr (o.members.map (fun m =>
      .obj [("name", .s m.name), ("district", .s m.district)]))),
    ("hearings", .arr (o.hearings.map hearingToJson))]

/-- The output document of `preprocess.py`, serialized. -/
def preprocessToJson (o : PreOut) : JVal :=
  .obj [("committee", .arr (o.committee.map (fun m =>
      .obj [("name", .s m.name), ("district", .s m.district), ("title", .s m.title)]))),
    ("witnesses", .arr (o.witnesses.map (fun w =>
      .obj [("name", .s w.name), ("title", .s w.title)]))),
    ("content", .arr (o.content.map (fun e =>
      .obj [("topic", .s e.topic), ("title", .s e.title), ("name", .s e.name),
        ("word_count", .n e.word_count), ("remarks", .s e.remarks)])))]

/-! ## Concrete documents used by the closed theorems -/

/-- A document in which no begin-marker (committee, witness, hearing,
document header) matches any line. -/
def docNoMarkers : List Str := [str "hello"]

/-- A line-mode document with a header line followed by two hearing-date
lines in a row: the second date line arrives while the scanner is in the
`HEARING` state, where the hearing pattern is not consulted. -/
def docTwoDates : List Str :=
  [str "DEPARTMENT OF DEFENSE APPROPRIATIONS FOR 2020",
   str "  Monday, June 1, 2020.",
   str "  Monday, June 1, 2020."]

/-- A content region for the topic-block segmenter: a character before the
first heading, two heading blocks, and a trailing body.  The segmenter
emits one block (the second heading has no following heading to satisfy
its lookahead), so the emitted extents do not cover the region. -/
def ctextGap : Str :=
  joinLines [str "x", str "", str "  AB", str "", str "b", str "",
    str "  CD", str "", str "y"]

/-- A block-mode document that both scans accept: committee section,
witness section, then content. -/
def docBlockOk : List Str :=
  [str "  SUBCOMMITTEE ON DEFENSE",
   str "  JOHN SMITH, TEXAS, CHAIRMAN",
   str "  ",
   str "  WITNESSES",
   str "skipped",
   str "JANE DOE, SECRETARY",
   str "",
   str "tail"]

/-! ## The roster round-trip fixture (for the committee extractor of `parse.py`)

A well-formed committee line is `Name, District` or `Name, District, Title`
with clean fields: nonempty, comma-free, no two adjacent whitespace
characters (so the column splitter `re.split(r"(?:\\s{2,}|\\t{2,})")` keeps
the record whole) and no whitespace at either end (so stripping is the
identity).  Titled records carry `Chair` in the title; untitled records do
not carry `Chair` in the district (the extractor keys its branch on
`"Chair" in tokens[-1]`). -/

/-- A committee record of the fixture. -/
structure CRecord where
  name : Str
  district : Str
  title? : Option Str
deriving Repr, DecidableEq

/-- The record rendered as its source line. -/
def renderRec (r : CRecord) : Str :=
  match r.title? with
  | none => r.name ++ ',' :: ' ' :: r.district
  | some t => r.name ++ ',' :: ' ' :: (r.district ++ ',' :: ' ' :: t)

/-- No two adjacent whitespace characters. -/
def noDoubleWs : Str → Bool
  | [] => true
  | [_] => true
  | a :: b :: t => !(isPySpace a && isPySpace b) && noDoubleWs (b :: t)

/-- A clean record field. -/
def cleanField (f : Str) : Bool :=
  !f.isEmpty && f.all (fun c => !decide (c = ',')) && noDoubleWs f &&
  (match f.head? with | some c => !isPySpace c | none => true) &&
  (match f.getLast? with | some c => !isPySpace c | none => true)

/-- A well-formed fixture record. -/
def cleanRec (r : CRecord) : Bool :=
  cleanField r.name && cleanField r.district &&
  (match r.title? with
   | some t => cleanField t && containsSub (str "Chair") t
   | none => !containsSub (str "Chair") r.district)

/-- The scanner invariant behind the hearing-structure theorem: the
hearings list is nonempty; before the first hearing opens (states `START`,
`DOCUMENT`, `COMMITTEE`) it is exactly the initial placeholder `[{}]`;
every hearing after the first carries a date; and the dates present form,
in order, a sub-sequence of the stripped hearing-date lines processed so
far. -/
def HearInv (pre : List Str) (st : PSt) : Prop :=
  st.out.hearings ≠ [] ∧
  ((st.state = .START ∨ st.state = .DOCUMENT ∨ st.state = .COMMITTEE) →
    st.out.hearings = [emptyHearing]) ∧
  (∀ h ∈ st.out.hearings.tail, h.date ≠ none) ∧
  List.Sublist (st.out.hearings.filterMap PHearing.date)
    ((pre.filter matchesHearing).map pyStrip)

/-! ## The claims -/

/-- C1: the spec promises that a missing section begin-marker yields an
empty roster and a completed parse with empty collections.  The line-mode
parser (`parse.py`) behaves exactly so; but the block-mode parser
(`preprocess.py`) reads past end-of-file forever when its committee
begin-marker (`^\s+SUBCOMMITTEE ON DEFENSE$`) never matches — `readline`
returns `""` at end-of-file, which matches neither the begin- nor the
end-pattern, so `while True` never exits.  The model returns `none` for
that non-termination; this theorem evaluates both parsers at a document
with no markers. -/
theorem C1_missing_marker_code_bug :
    scanCommittee docNoMarkers = none ∧
    preprocessDocument docNoMarkers = none ∧
    parseDocument docNoMarkers = some ⟨none, [], [⟨none, [], []⟩]⟩ := by
  exact ⟨rfl, rfl, rfl⟩

/-- Attribution of one turn is idempotent: the second application reads
the same surname and overwrites the same two fields. -/
theorem attributeTurn_idem (ws : List Str) (ms : List PMember) (t : TurnAttr) :
    attributeTurn ws ms (attributeTurn ws ms t) = attributeTurn ws ms t := rfl

/-- C7: the Speaker Attribution Assembler is idempotent: attribution
overwrites the `role`/`district` fields with values computed from the
turn's unchanged surname and the unchanged rosters. -/
theorem C7_attribution_idempotent (d : ADocAttr) :
    attributeDocument (attributeDocument d) = attributeDocument d := by
  unfold attributeDocument
  simp only [List.map_map]
  refine congrArg (ADocAttr.mk d.year d.members) ?_
  apply List.map_congr_left
  intro h _
  obtain ⟨date, w, sp⟩ := h
  cases sp <;>
    simp [Function.comp, Option.map_map, List.map_map, attributeTurn_idem]

/-- C9: a hearing lacking the `witnesses` key or the `speakers` key is
skipped by the enrichment pass: removing it from the input changes nothing
in the output table. -/
theorem C9_keyless_hearing_skipped (year : Str) (ms : List PMember)
    (pre post : List AHearing) (h : AHearing)
    (hk : h.witnesses = none ∨ h.speakers = none) :
    analyze ⟨year, ms, pre ++ h :: post⟩ = analyze ⟨year, ms, pre ++ post⟩ := by
  have hnone : processHearing year ms h = none := by
    rcases hk with hk | hk
    · simp [processHearing, hk]
    · cases hw : h.witnesses <;> simp [processHearing, hk, hw]
  have hlists : (pre ++ h :: post).filterMap (processHearing year ms) =
      (pre ++ post).filterMap (processHearing year ms) := by
    simp [List.filterMap_append, List.filterMap_cons, hnone]
  simp only [analyze, hlists]

/-- Witness for C9: a hearing with a nonempty `speakers` list but no
`witnesses` key contributes no rows. -/
theorem C9_keyless_hearing_skipped_witness :
    analyze ⟨str "2020", [],
      [⟨str "d", none, some [⟨str "Mr", str "A", str "hi"⟩]⟩]⟩ =
    analyze ⟨str "2020", [], []⟩ :=
  C9_keyless_hearing_skipped (str "2020") [] [] []
    ⟨str "d", none, some [⟨str "Mr", str "A", str "hi"⟩]⟩ (Or.inl rfl)

/-- C10: both parsers are functions of the file's text content alone: on
byte-identical content they return identical structures.  (The embedding
realizes each parser as a pure function of the lines; neither consults any
other state.) -/
theorem C10_deterministic (l1 l2 : List Str) (h : l1 = l2) :
    parseDocument l1 = parseDocument l2 ∧
    preprocessDocument l1 = preprocessDocument l2 := by
  subst h; exact ⟨rfl, rfl⟩

/-- Witness for C10. -/
theorem C10_deterministic_witness :
    parseDocument docNoMarkers = parseDocument docNoMarkers ∧
    preprocessDocument docNoMarkers = preprocessDocument docNoMarkers :=
  C10_deterministic docNoMarkers docNoMarkers rfl

/-- C8 (counterexample): the block-mode output has no top-level `header`
key: `preprocess_document` builds `{"committee": …, "witnesses": …,
"content": …}` and nothing else, so the claim's "top-level `header` key in
both modes" fails on every successfully parsed block-mode input; here on a
concrete one. -/
theorem C8_no_header_in_block_mode :
    (preprocessDocument docBlockOk).map (fun o => topKeys (preprocessToJson o)) =
      some ["committee", "witnesses", "content"] ∧
    "header" ∉ ["committee", "witnesses", "content"] := by
  exact ⟨by decide, by decide⟩

/-- C8 (amended): the line-mode output has exactly the top-level keys
`header`, `members`, `hearings` (witnesses nested per hearing); the
block-mode output has exactly `committee`, `witnesses`, `content` and no
`header`. -/
theorem C8_top_level_keys :
    (∀ o : ParseOut, topKeys (parseToJson o) = ["header", "members", "hearings"]) ∧
    (∀ o : PreOut, topKeys (preprocessToJson o) = ["committee", "witnesses", "content"]) :=
  ⟨fun _ => rfl, fun _ => rfl⟩

/-- C2 (counterexample): a document with two hearing-date lines for which
the segmenter produces one hearing record, not two: the second date line
is read in the `HEARING` state, which only looks for the witness
begin-marker. -/
theorem C2_two_dates_one_hearing :
    docTwoDates.countP matchesHearing = 2 ∧
    (parseDocument docTwoDates).map (fun o => o.hearings.length) = some 1 := by
  exact ⟨by decide, by decide⟩

/-- C3 (counterexample): the emitted content blocks do not reconstruct the
content region: the region `ctextGap` contains two heading blocks, but only
the first is emitted (the last block's lookahead needs a following heading),
and text before the first heading is skipped, so concatenating the emitted
extents differs from the region. -/
theorem C3_blocks_do_not_cover :
    (cbFindAll ctextGap).map (fun b => (b.start, b.stop)) = [(1, 10)] ∧
    ((cbFindAll ctextGap).map (fun b => sliceStr ctextGap b.start b.stop)).flatten ≠
      ctextGap := by
  exact ⟨by decide, by decide⟩

/-- `updLast` maps the last element. -/
theorem updLast_getLast? {α : Type} (f : α → α) (l : List α) :
    (updLast f l).getLast? = l.getLast?.map f := by
  unfold updLast
  cases hq : l.getLast? with
  | none => rfl
  | some a => simp [List.getLast?_concat]

/-- `updLast` on a list with an explicit last element. -/
theorem updLast_concat {α : Type} (f : α → α) (l : List α) (a : α) :
    updLast f (l ++ [a]) = l ++ [f a] := by
  unfold updLast
  simp [List.getLast?_concat, List.dropLast_concat]

/-- `updLast` preserves nonemptiness. -/
theorem updLast_ne_nil {α : Type} (f : α → α) (l : List α) (h : l ≠ []) :
    updLast f l ≠ [] := by
  unfold updLast
  cases hq : l.getLast? with
  | none => exact absurd (List.getLast?_eq_none_iff.mp hq) h
  | some a => simp

/-- C6: in the `CONTENT` state, a speaker line followed by two non-blank,
non-speaker lines yields a turn whose remarks are the speaker line's
captured remark and the two continuation lines, each stripped, joined by
single spaces. -/
theorem C6_continuation (st : PSt) (l0 l1 l2 g1 g2 g4 : Str)
    (hst : st.state = .CONTENT)
    (hne : st.out.hearings ≠ [])
    (h0 : matchSpeaker l0 = some (g1, g2, g4))
    (h0h : matchesHearing l0 = false)
    (h1a : pyStrip l1 ≠ []) (h1b : matchSpeaker l1 = none)
    (h2a : pyStrip l2 ≠ []) (h2b : matchSpeaker l2 = none) :
    (foldSteps pstep [l0, l1, l2] st).map
        (fun st' => (st'.state, st'.out.hearings.getLast?.map (fun h => h.speakers.getLast?))) =
      some (PState.SPEAKER,
        some (some ⟨g1, g2, joinSp [pyStrip g4, pyStrip l1, pyStrip l2]⟩)) := by
  obtain ⟨s0, out0⟩ := st
  simp only [] at hst hne
  subst hst
  obtain ⟨hl, hhl⟩ : ∃ a, out0.hearings.getLast? = some a := by
    cases hq : out0.hearings.getLast? with
    | none => exact absurd (List.getLast?_eq_none_iff.mp hq) hne
    | some a => exact ⟨a, rfl⟩
  have e1 : pstep ⟨.CONTENT, out0⟩ l0 = some ⟨.SPEAKER,
      { out0 with hearings :=
          (updLast (fun h => { h with speakers := h.speakers ++ [⟨g1, g2, pyStrip g4⟩] })
            out0.hearings) }⟩ := by
    simp [pstep, h0h, h0]
  have e2 : ∀ out1 : ParseOut, pstep ⟨.SPEAKER, out1⟩ l1 = some ⟨.SPEAKER,
      { out1 with hearings :=
          (updLast (fun h => if h.speakers ≠ [] then
              { h with speakers :=
                (updLast (fun sp => { sp with remarks := sp.remarks ++ ' ' :: pyStrip l1 })
                  h.speakers) }
            else h) out1.hearings) }⟩ := by
    intro out1
    simp [pstep, h1a, h1b]
  have e3 : ∀ out2 : ParseOut, pstep ⟨.SPEAKER, out2⟩ l2 = some ⟨.SPEAKER,
      { out2 with hearings :=
          (updLast (fun h => if h.speakers ≠ [] then
              { h with speakers :=
                (updLast (fun sp => { sp with remarks := sp.remarks ++ ' ' :: pyStrip l2 })
                  h.speakers) }
            else h) out2.hearings) }⟩ := by
    intro out2
    simp [pstep, h2a, h2b]
  simp only [foldSteps, List.foldl_cons, List.foldl_nil, Option.some_bind, e1, e2, e3,
    Option.map_some']
  simp only [updLast_getLast?, hhl, Option.map_some']
  simp only [List.append_ne_nil_of_right_ne_nil, ne_eq, List.append_eq_nil,
    List.cons_ne_self, and_false, not_false_eq_true, if_true, ite_true]
  simp [updLast_concat, List.getLast?_concat, joinSp, List.append_assoc]

/-- Witness for C6: a concrete speaker line with two continuations. -/
theorem C6_continuation_witness :
    (foldSteps pstep
        [str "    Mr. Smith. Thank you.", str "more text", str "and more."]
        ⟨.CONTENT, ⟨some (str "2020"), [], [⟨some (str "d"), [], []⟩]⟩⟩).map
        (fun st' => (st'.state, st'.out.hearings.getLast?.map (fun h => h.speakers.getLast?))) =
      some (PState.SPEAKER,
        some (some ⟨str "Mr", str "Smith",
          joinSp [pyStrip (str " Thank you."), pyStrip (str "more text"),
            pyStrip (str "and more.")]⟩)) :=
  C6_continuation ⟨.CONTENT, ⟨some (str "2020"), [], [⟨some (str "d"), [], []⟩]⟩⟩
    (str "    Mr. Smith. Thank you.") (str "more text") (str "and more.")
    (str "Mr") (str "Smith") (str " Thank you.")
    rfl (by decide) (by decide) (by decide) (by decide) (by decide) (by decide) (by decide)

/-- `startsWith` agrees with list-prefix. -/
theorem startsWith_iff {p s : Str} : startsWith s p = true ↔ p <+: s := by
  induction p generalizing s with
  | nil => simp [startsWith]
  | cons d t ih =>
    cases s with
    | nil => simp [startsWith]
    | cons c s' =>
      rw [show startsWith (c :: s') (d :: t) = (decide (c = d) && startsWith s' t) from rfl]
      simp only [Bool.and_eq_true, decide_eq_true_eq, ih, List.cons_prefix_cons]
      rw [@eq_comm Char c d]

/-- `containsSub` agrees with list-infix (Python `in`). -/
theorem containsSub_iff {n h : Str} : containsSub n h = true ↔ n <:+: h := by
  induction h with
  | nil =>
    simp only [containsSub, startsWith_iff, List.prefix_nil, List.infix_nil]
  | cons c s ih =>
    simp [containsSub, startsWith_iff, ih, List.infix_cons_iff]

/-- C4: attribution of a closed speaker turn.  The role is `WITNESS`
exactly when the uppercased surname is a substring of some witness name
(independently of the committee roster), else `MEMBER`; the district is
the district of the first committee record whose name contains the
uppercased surname, and `null` when none does. -/
theorem C4_attribution (wns : List Str) (ms : List PMember) (t : ATurn)
    (year date : Str) :
    ((mkRow year ms wns date t).role = str "WITNESS" ↔
      ∃ w ∈ wns, pyUpper t.surname <:+: w) ∧
    ((¬ ∃ w ∈ wns, pyUpper t.surname <:+: w) →
      (mkRow year ms wns date t).role = str "MEMBER") ∧
    ((∀ m ∈ ms, ¬ pyUpper t.surname <:+: m.name) →
      (mkRow year ms wns date t).district = none) ∧
    (∀ l m r, ms = l ++ m :: r → pyUpper t.surname <:+: m.name →
      (∀ m' ∈ l, ¬ pyUpper t.surname <:+: m'.name) →
      (mkRow year ms wns date t).district = some m.district) := by
  have hrole : (mkRow year ms wns date t).role = roleOf wns t.surname := rfl
  have hdist : (mkRow year ms wns date t).district = districtOf ms t.surname := rfl
  have hany : (wns.any (fun w => containsSub (pyUpper t.surname) w) = true) ↔
      ∃ w ∈ wns, pyUpper t.surname <:+: w := by
    simp [List.any_eq_true, containsSub_iff]
  refine ⟨?_, ?_, ?_, ?_⟩
  · rw [hrole]
    unfold roleOf
    by_cases hc : wns.any (fun w => containsSub (pyUpper t.surname) w) = true
    · simp [hc, hany.mp hc]
    · rw [if_neg hc]
      simp only [← hany]
      constructor
      · intro he
        exact absurd he (by decide)
      · intro he
        exact absurd he hc
  · intro hno
    rw [hrole]
    unfold roleOf
    rw [if_neg (fun hc => hno (hany.mp hc))]
  · intro hnone
    rw [hdist]
    unfold districtOf
    rw [List.find?_eq_none.mpr (fun m hm => by
      simp only [Bool.not_eq_true]
      exact (Bool.not_eq_true _).mp (fun hc => hnone m hm (containsSub_iff.mp hc)))]
    rfl
  · intro l m r hms hm hl
    rw [hdist]
    unfold districtOf
    subst hms
    rw [List.find?_append]
    rw [List.find?_eq_none.mpr (fun m' hm' => by
      simp only [Bool.not_eq_true]
      exact (Bool.not_eq_true _).mp (fun hc => hl m' hm' (containsSub_iff.mp hc)))]
    rw [Option.none_or,
      List.find?_cons_of_pos (p := fun m' => containsSub (pyUpper t.surname) m'.name)
        r (containsSub_iff.mpr hm)]
    rfl

/-- Witness for C4: the surname `Smith` appears in the witness roster, so
the role is `WITNESS` although a committee member (`MR. SMITHSON`) shares
the name fragment; the district still comes from that first matching
committee record. -/
theorem C4_attribution_witness :
    (mkRow (str "2020") [⟨str "MR. SMITHSON", str "Texas"⟩]
        [str "GEN. SMITH, CHIEF"] (str "d") ⟨str "Mr", str "Smith", str "hi"⟩).role =
      str "WITNESS" ∧
    (mkRow (str "2020") [⟨str "MR. SMITHSON", str "Texas"⟩]
        [str "GEN. SMITH, CHIEF"] (str "d") ⟨str "Mr", str "Smith", str "hi"⟩).district =
      some (str "Texas") := by
  refine ⟨?_, ?_⟩
  · exact (C4_attribution [str "GEN. SMITH, CHIEF"] [⟨str "MR. SMITHSON", str "Texas"⟩]
      ⟨str "Mr", str "Smith", str "hi"⟩ (str "2020") (str "d")).1.mpr
      ⟨str "GEN. SMITH, CHIEF", by decide, by decide⟩
  · exact (C4_attribution [str "GEN. SMITH, CHIEF"] [⟨str "MR. SMITHSON", str "Texas"⟩]
      ⟨str "Mr", str "Smith", str "hi"⟩ (str "2020") (str "d")).2.2.2
      [] ⟨str "MR. SMITHSON", str "Texas"⟩ [] rfl (by decide) (by simp)

/-- Extraction for `descendSome`: a result comes from some split in `[1, k]`. -/
theorem descendSome_eq_some {α : Type} :
    ∀ (k : Nat) (f : Nat → Option α) (a : α),
      descendSome k f = some a → ∃ j, 1 ≤ j ∧ j ≤ k ∧ f j = some a
  | 0, _, _, h => by cases h
  | k + 1, f, a, h => by
    unfold descendSome at h
    cases hq : f (k + 1) with
    | some b =>
      rw [hq] at h
      simp only [Option.some_orElse] at h
      exact ⟨k + 1, by omega, by omega, by rw [hq, h]⟩
    | none =>
      rw [hq] at h
      simp only [Option.none_orElse] at h
      obtain ⟨j, hj1, hjk, hf⟩ := descendSome_eq_some k f a h
      exact ⟨j, hj1, by omega, hf⟩

/-- Extraction for `ascendSome`: a result comes from some index below `k`. -/
theorem ascendSome_eq_some {α : Type} :
    ∀ (k : Nat) (f : Nat → Option α) (a : α),
      ascendSome k f = some a → ∃ j, j < k ∧ f j = some a
  | 0, _, _, h => by cases h
  | k + 1, f, a, h => by
    unfold ascendSome at h
    cases hq : f 0 with
    | some b =>
      rw [hq] at h
      simp only [Option.some_orElse] at h
      exact ⟨0, by omega, by rw [hq, h]⟩
    | none =>
      rw [hq] at h
      simp only [Option.none_orElse] at h
      obtain ⟨j, hj, hf⟩ := ascendSome_eq_some k (fun i => f (i + 1)) a h
      exact ⟨j + 1, by omega, hf⟩

/-- A content-block match never ends before its start. -/
theorem matchCB_le {s : Str} {i e : Nat} {g : Str × Str}
    (h : matchCB s i = some (e, g)) : i ≤ e := by
  unfold matchCB at h
  split at h
  · obtain ⟨a, _, _, ha⟩ := descendSome_eq_some _ _ _ h
    obtain ⟨b, _, _, hb⟩ := descendSome_eq_some _ _ _ ha
    split at hb
    · obtain ⟨de, _, hd⟩ := ascendSome_eq_some _ _ _ hb
      split at hd
      · simp only [Option.some.injEq, Prod.mk.injEq] at hd
        omega
      · cases hd
    · cases hb
  · cases h

/-- The scan produces matches in document order: every reported span starts
at or after the probe position, spans are well-formed, and each match ends
at or before the next one starts. -/
theorem reScan_ordered {γ : Type} (matchAt : Nat → Option (Nat × γ))
    (hm : ∀ i e g, matchAt i = some (e, g) → i ≤ e) :
    ∀ (fuel pos : Nat),
      (∀ x ∈ reScan matchAt fuel pos, pos ≤ x.1 ∧ x.1 ≤ x.2.1) ∧
      List.Chain' (fun x y => x.2.1 ≤ y.1) (reScan matchAt fuel pos)
  | 0, pos => by
    unfold reScan
    simp
  | fuel + 1, pos => by
    unfold reScan
    cases hq : matchAt pos with
    | none =>
      simp only [hq]
      refine ⟨fun x hx => ?_, (reScan_ordered matchAt hm fuel (pos + 1)).2⟩
      have h1 := (reScan_ordered matchAt hm fuel (pos + 1)).1 x hx
      exact ⟨by omega, h1.2⟩
    | some eg =>
      obtain ⟨e, g⟩ := eg
      simp only [hq]
      have hie := hm pos e g hq
      constructor
      · intro x hx
        rcases List.mem_cons.mp hx with rfl | hx'
        · exact ⟨le_refl _, hie⟩
        · have h1 := (reScan_ordered matchAt hm fuel (max e (pos + 1))).1 x hx'
          refine ⟨by omega, h1.2⟩
      · rw [List.chain'_cons']
        refine ⟨fun y hy => ?_, (reScan_ordered matchAt hm fuel (max e (pos + 1))).2⟩
        have hmem := List.mem_of_mem_head? hy
        have h1 := (reScan_ordered matchAt hm fuel (max e (pos + 1))).1 y hmem
        exact le_trans (le_max_left e (pos + 1)) h1.1

/-- C3 (amended): the content blocks emitted by the Topic-Block Segmenter
are well-formed and pairwise non-overlapping, in document order: each
block's extent ends at or before the start of the next.  (The claim's
stronger statement — that the extents reconstruct the whole content region
with no gaps — fails; see the counterexample: text before the first
heading, unmatched text between blocks, and everything from the last
heading on is not covered.) -/
theorem C3_blocks_ordered (s : Str) :
    (∀ b ∈ cbFindAll s, b.start ≤ b.stop) ∧
    List.Chain' (fun b1 b2 => b1.stop ≤ b2.start) (cbFindAll s) := by
  unfold cbFindAll reFindIter
  have h := reScan_ordered (matchCB s) (fun _ _ _ hh => matchCB_le hh) (s.length + 1) 0
  constructor
  · intro b hb
    obtain ⟨x, hx, rfl⟩ := List.mem_map.mp hb
    exact (h.1 x hx).2
  · rw [List.chain'_map]
    exact h.2

/-- `dropWhile` is the identity when the head fails the test. -/
theorem dropWhile_eq_self_of_head {p : Char → Bool} {s : Str}
    (h : ∀ c, s.head? = some c → p c = false) : s.dropWhile p = s := by
  cases s with
  | nil => rfl
  | cons c t => simp [List.dropWhile_cons, h c rfl]

/-- Stripping is the identity on a string with no whitespace at either end. -/
theorem pyStrip_eq_self {s : Str}
    (h1 : ∀ c, s.head? = some c → isPySpace c = false)
    (h2 : ∀ c, s.getLast? = some c → isPySpace c = false) : pyStrip s = s := by
  unfold pyStrip
  rw [dropWhile_eq_self_of_head h1]
  rw [dropWhile_eq_self_of_head (fun c hc => h2 c (by rwa [← List.head?_reverse]))]
  exact List.reverse_reverse s

/-- Stripping swallows a leading space. -/
theorem pyStrip_cons_space (s : Str) : pyStrip (' ' :: s) = pyStrip s := by
  unfold pyStrip
  rw [List.dropWhile_cons_of_pos (by decide)]

/-- `noDoubleWs` composes over an append whose junction is not two
whitespace characters. -/
theorem noDoubleWs_append {a b : Str} (ha : noDoubleWs a = true) (hb : noDoubleWs b = true)
    (hj : ∀ ca cb, a.getLast? = some ca → b.head? = some cb →
      ¬(isPySpace ca = true ∧ isPySpace cb = true)) :
    noDoubleWs (a ++ b) = true := by
  induction a with
  | nil => simpa using hb
  | cons x t ih =>
    cases t with
    | nil =>
      cases b with
      | nil => simpa using ha
      | cons y u =>
        have hx := hj x y rfl rfl
        simp only [List.cons_append, List.nil_append, noDoubleWs, Bool.and_eq_true,
          Bool.not_eq_true']
        constructor
        · cases hpx : isPySpace x <;> cases hpy : isPySpace y <;> simp_all
        · exact hb
    | cons z u =>
      simp only [noDoubleWs, Bool.and_eq_true] at ha
      have hrec := ih ha.2 (fun ca cb hca hcb =>
        hj ca cb (by rw [List.getLast?_cons_cons]; exact hca) hcb)
      simp only [List.cons_append] at hrec ⊢
      simp only [noDoubleWs, Bool.and_eq_true]
      exact ⟨ha.1, hrec⟩

/-- The column splitter keeps a nonempty string without adjacent
whitespace pairs whole. -/
theorem splitWs2_eq_single {s : Str} (hs : s ≠ []) (h : noDoubleWs s = true) :
    splitWs2 s = [s] := by
  induction s with
  | nil => exact absurd rfl hs
  | cons c t ih =>
    cases t with
    | nil => simp [splitWs2]
    | cons d u =>
      have h1 : (isPySpace c && isPySpace d) = false := by
        simp only [noDoubleWs, Bool.and_eq_true, Bool.not_eq_true'] at h
        simpa using h.1
      have h2 : noDoubleWs (d :: u) = true := by
        simp only [noDoubleWs, Bool.and_eq_true] at h
        exact h.2
      rw [splitWs2, h1]
      simp only [Bool.false_eq_true, if_false]
      rw [ih (by simp) h2]

/-- Splitting on a separator absent from the string. -/
theorem pySplitOn_no_sep {sep : Char} {s : Str} (h : ∀ c ∈ s, ¬ c = sep) :
    pySplitOn sep s = [s] := by
  induction s with
  | nil => rfl
  | cons c t ih =>
    unfold pySplitOn
    rw [if_neg (h c (by simp))]
    rw [ih (fun x hx => h x (by simp [hx]))]

/-- Splitting at the first separator after a separator-free prefix. -/
theorem pySplitOn_append {sep : Char} {a : Str} (b : Str) (h : ∀ c ∈ a, ¬ c = sep) :
    pySplitOn sep (a ++ sep :: b) = a :: pySplitOn sep b := by
  induction a with
  | nil => simp [pySplitOn]
  | cons c t ih =>
    show pySplitOn sep (c :: (t ++ sep :: b)) = _
    have hstep : pySplitOn sep (c :: (t ++ sep :: b)) =
        (match pySplitOn sep (t ++ sep :: b) with
         | t' :: ts => (c :: t') :: ts
         | [] => [[c]]) := by
      simp only [pySplitOn]
      rw [if_neg (h c (by simp))]
    rw [hstep, ih (fun x hx => h x (by simp [hx]))]

/-- Unpacking `cleanField`. -/
theorem cleanField_spec {f : Str} (h : cleanField f = true) :
    f ≠ [] ∧ (∀ c ∈ f, ¬ c = ',') ∧ noDoubleWs f = true ∧
    (∀ c, f.head? = some c → isPySpace c = false) ∧
    (∀ c, f.getLast? = some c → isPySpace c = false) := by
  unfold cleanField at h
  simp only [Bool.and_eq_true] at h
  obtain ⟨⟨⟨⟨h1, h2⟩, h3⟩, h4⟩, h5⟩ := h
  refine ⟨by simpa using h1, ?_, h3, ?_, ?_⟩
  · intro c hc
    have := List.all_eq_true.mp h2 c hc
    simpa using this
  · intro c hc
    rw [hc] at h4
    simpa using h4
  · intro c hc
    rw [hc] at h5
    simpa using h5

/-- The head of an append with a nonempty left part. -/
theorem head?_append_left {a : Str} (b : Str) (ha : a ≠ []) :
    (a ++ b).head? = a.head? := by
  cases a with
  | nil => exact absurd rfl ha
  | cons c t => rfl

/-- The last element behind a cons with a nonempty tail. -/
theorem getLast?_cons_of_ne_nil {c : Char} {l : Str} (h : l ≠ []) :
    (c :: l).getLast? = l.getLast? := by
  cases l with
  | nil => exact absurd rfl h
  | cons d t => exact List.getLast?_cons_cons

/-- The last element of an append with a nonempty right part. -/
theorem getLast?_append_right {a b : Str} (hb : b ≠ []) :
    (a ++ b).getLast? = b.getLast? := by
  rw [List.getLast?_append]
  cases hq : b.getLast? with
  | none => exact absurd (List.getLast?_eq_none_iff.mp hq) hb
  | some c => rfl

/-- `noDoubleWs` across a clean field, a `", "` separator and a suffix whose
head is not whitespace. -/
theorem noDoubleWs_glue {f s : Str} (hf : cleanField f = true)
    (hs : noDoubleWs s = true)
    (hsh : ∀ c, s.head? = some c → isPySpace c = false) :
    noDoubleWs (f ++ ',' :: ' ' :: s) = true := by
  obtain ⟨_, _, hnd, _, _⟩ := cleanField_spec hf
  apply noDoubleWs_append hnd
  · cases s with
    | nil => decide
    | cons c u =>
      have hc := hsh c rfl
      simp only [noDoubleWs, Bool.and_eq_true, Bool.not_eq_true']
      refine ⟨by decide, ?_, ?_⟩
      · simp [hc]
      · simpa [noDoubleWs] using hs
  · intro ca cb _ hcb
    simp only [List.head?_cons, Option.some.injEq] at hcb
    subst hcb
    simp [isPySpace]

/-- The committee extractor on one well-formed rendered line: exactly one
record, named by the first field; the district is the last field for an
untitled record and the second-to-last (penultimate) field for a record
whose title contains `Chair`. -/
theorem parseCommitteeLine_renderRec {r : CRecord} (h : cleanRec r = true) :
    parseCommitteeLine (renderRec r) = some [⟨r.name, r.district⟩] := by
  obtain ⟨name, district, title?⟩ := r
  unfold cleanRec at h
  simp only [Bool.and_eq_true] at h
  obtain ⟨⟨hn, hd⟩, ht⟩ := h
  obtain ⟨hnne, hnc, hnd, hnh, hnl⟩ := cleanField_spec hn
  obtain ⟨hdne, hdc, hdd, hdh, hdl⟩ := cleanField_spec hd
  cases title? with
  | none =>
    simp only [] at ht
    simp only [renderRec]
    have hlineh : ∀ c, (name ++ ',' :: ' ' :: district).head? = some c →
        isPySpace c = false := by
      intro c hc
      rw [head?_append_left _ hnne] at hc
      exact hnh c hc
    have hlinel : ∀ c, (name ++ ',' :: ' ' :: district).getLast? = some c →
        isPySpace c = false := by
      intro c hc
      rw [getLast?_append_right (by simp), List.getLast?_cons_cons,
        getLast?_cons_of_ne_nil hdne] at hc
      exact hdl c hc
    have hlined : noDoubleWs (name ++ ',' :: ' ' :: district) = true :=
      noDoubleWs_glue hn hdd hdh
    have hlinene : (name ++ ',' :: ' ' :: district) ≠ [] := by simp
    have hsplit : pySplitOn ',' (name ++ ',' :: ' ' :: district) =
        [name, ' ' :: district] := by
      rw [pySplitOn_append _ hnc]
      rw [pySplitOn_no_sep (by
        intro c hc
        rcases List.mem_cons.mp hc with rfl | hc'
        · decide
        · exact hdc c hc')]
    have hch : containsSub (str "Chair") (' ' :: district) = false := by
      have h1 : startsWith (' ' :: district) (str "Chair") = false := by
        rw [show str "Chair" = 'C' :: str "hair" from rfl]
        simp [startsWith]
      simp only [containsSub, h1, Bool.false_or]
      simpa using ht
    have hmem : parseCommitteeMember (name ++ ',' :: ' ' :: district) =
        some ⟨name, district⟩ := by
      unfold parseCommitteeMember
      simp only [hsplit,
        show ([name, ' ' :: district] : List Str).getLastD [] = ' ' :: district from rfl,
        show ([name, ' ' :: district] : List Str).headD [] = name from rfl,
        hch, Bool.false_eq_true, if_false]
      rw [pyStrip_eq_self hnh hnl, pyStrip_cons_space, pyStrip_eq_self hdh hdl]
    unfold parseCommitteeLine
    rw [pyStrip_eq_self hlineh hlinel, splitWs2_eq_single hlinene hlined]
    simp [hlinene, hmem, List.mapM.loop]
  | some t =>
    simp only [] at ht
    simp only [Bool.and_eq_true] at ht
    obtain ⟨htf, htc⟩ := ht
    obtain ⟨htne, htcc, htdd, hth, htl⟩ := cleanField_spec htf
    simp only [renderRec]
    have hinnerh : ∀ c, (district ++ ',' :: ' ' :: t).head? = some c →
        isPySpace c = false := by
      intro c hc
      rw [head?_append_left _ hdne] at hc
      exact hdh c hc
    have hlineh : ∀ c, (name ++ ',' :: ' ' :: (district ++ ',' :: ' ' :: t)).head? = some c →
        isPySpace c = false := by
      intro c hc
      rw [head?_append_left _ hnne] at hc
      exact hnh c hc
    have hlinel : ∀ c,
        (name ++ ',' :: ' ' :: (district ++ ',' :: ' ' :: t)).getLast? = some c →
        isPySpace c = false := by
      intro c hc
      rw [getLast?_append_right (by simp), List.getLast?_cons_cons,
        getLast?_cons_of_ne_nil (by simp), getLast?_append_right (by simp),
        List.getLast?_cons_cons, getLast?_cons_of_ne_nil htne] at hc
      exact htl c hc
    have hlined : noDoubleWs (name ++ ',' :: ' ' :: (district ++ ',' :: ' ' :: t)) = true :=
      noDoubleWs_glue hn (noDoubleWs_glue hd htdd hth) hinnerh
    have hlinene : (name ++ ',' :: ' ' :: (district ++ ',' :: ' ' :: t)) ≠ [] := by simp
    have hsplit : pySplitOn ',' (name ++ ',' :: ' ' :: (district ++ ',' :: ' ' :: t)) =
        [name, ' ' :: district, ' ' :: t] := by
      rw [pySplitOn_append _ hnc]
      rw [show (' ' :: (district ++ ',' :: ' ' :: t)) =
        (' ' :: district) ++ ',' :: ' ' :: t from rfl]
      rw [pySplitOn_append _ (by
        intro c hc
        rcases List.mem_cons.mp hc with rfl | hc'
        · decide
        · exact hdc c hc')]
      rw [pySplitOn_no_sep (by
        intro c hc
        rcases List.mem_cons.mp hc with rfl | hc'
        · decide
        · exact htcc c hc')]
    have hch : containsSub (str "Chair") (' ' :: t) = true := by
      simp only [containsSub, htc, Bool.or_true]
    have hmem : parseCommitteeMember (name ++ ',' :: ' ' :: (district ++ ',' :: ' ' :: t)) =
        some ⟨name, district⟩ := by
      unfold parseCommitteeMember
      simp only [hsplit,
        show ([name, ' ' :: district, ' ' :: t] : List Str).getLastD [] = ' ' :: t from rfl,
        show ([name, ' ' :: district, ' ' :: t] : List Str).headD [] = name from rfl,
        show secondLast? [name, ' ' :: district, ' ' :: t] = some (' ' :: district) from rfl,
        hch, if_true]
      rw [pyStrip_eq_self hnh hnl, pyStrip_cons_space, pyStrip_eq_self hdh hdl]
    unfold parseCommitteeLine
    rw [pyStrip_eq_self hlineh hlinel, splitWs2_eq_single hlinene hlined]
    simp [hlinene, hmem, List.mapM.loop]

/-- The rendered line of a titled record splits on commas into exactly
`[name, district, title]` (so the district is the penultimate field). -/
theorem renderRec_split_titled {r : CRecord} {t : Str} (h : cleanRec r = true)
    (ht : r.title? = some t) :
    pySplitOn ',' (renderRec r) = [r.name, ' ' :: r.district, ' ' :: t] := by
  obtain ⟨name, district, title?⟩ := r
  simp only [] at ht
  subst ht
  unfold cleanRec at h
  simp only [Bool.and_eq_true] at h
  obtain ⟨⟨hn, hd⟩, ht', _⟩ := h
  obtain ⟨_, hnc, _, _, _⟩ := cleanField_spec hn
  obtain ⟨_, hdc, _, _, _⟩ := cleanField_spec hd
  obtain ⟨_, htcc, _, _, _⟩ := cleanField_spec ht'
  simp only [renderRec]
  rw [pySplitOn_append _ hnc]
  rw [show (' ' :: (district ++ ',' :: ' ' :: t)) =
    (' ' :: district) ++ ',' :: ' ' :: t from rfl]
  rw [pySplitOn_append _ (by
    intro c hc
    rcases List.mem_cons.mp hc with rfl | hc'
    · decide
    · exact hdc c hc')]
  rw [pySplitOn_no_sep (by
    intro c hc
    rcases List.mem_cons.mp hc with rfl | hc'
    · decide
    · exact htcc c hc')]

/-- C5: the roster round-trip of the committee extractor of `parse.py`.
Given N well-formed `Name, District[, Title]` records, exactly one of them
titled (its title containing `Chair`), the extractor returns exactly N
records `{name, district}` — the Chair record's district taken from the
penultimate comma field (its rendered line splits into
`[name, district, title]` and the extracted district is the district
field), the others' from the last.  (`parse.py`'s member records carry no
title key; the spec's `title` is optional and never materializes in line
mode.) -/
theorem C5_roster_roundtrip (rs : List CRecord)
    (hclean : ∀ r ∈ rs, cleanRec r = true)
    (hone : rs.countP (fun r => r.title?.isSome) = 1) :
    (rs.map renderRec).mapM parseCommitteeLine =
      some (rs.map (fun r => [(⟨r.name, r.district⟩ : PMember)])) ∧
    ((rs.map renderRec).mapM parseCommitteeLine).map (fun l => l.flatten.length) =
      some rs.length ∧
    (∀ r ∈ rs, ∀ t, r.title? = some t →
      pySplitOn ',' (renderRec r) = [r.name, ' ' :: r.district, ' ' :: t]) := by
  have hmain : (rs.map renderRec).mapM parseCommitteeLine =
      some (rs.map (fun r => [(⟨r.name, r.district⟩ : PMember)])) := by
    clear hone
    induction rs with
    | nil => rfl
    | cons r rest ih =>
      simp only [List.map_cons, List.mapM_cons]
      rw [parseCommitteeLine_renderRec (hclean r (by simp))]
      rw [ih (fun x hx => hclean x (by simp [hx]))]
      rfl
  refine ⟨hmain, ?_, ?_⟩
  · have hlen : ∀ l : List CRecord,
        ((l.map (fun r => [(⟨r.name, r.district⟩ : PMember)])).flatten).length = l.length := by
      intro l
      induction l with
      | nil => rfl
      | cons x t ih => simp [ih]
    rw [hmain, Option.map_some', hlen rs]
  · intro r hr t ht
    exact renderRec_split_titled (hclean r hr) ht

/-- Witness for C5: a two-record fixture, one Chair record. -/
theorem C5_roster_roundtrip_witness :
    ([⟨str "Jane Doe", str "Ohio", none⟩,
      ⟨str "John Smith", str "Texas", some (str "Chair")⟩].map renderRec).mapM
        parseCommitteeLine =
      some [[⟨str "Jane Doe", str "Ohio"⟩], [⟨str "John Smith", str "Texas"⟩]] :=
  (C5_roster_roundtrip
    [⟨str "Jane Doe", str "Ohio", none⟩,
     ⟨str "John Smith", str "Texas", some (str "Chair")⟩]
    (by decide) (by decide)).1

/-- A failed step poisons the rest of the fold. -/
theorem foldSteps_none {σ : Type} (step : σ → Str → Option σ) (lines : List Str) :
    lines.foldl (fun acc l => acc.bind (fun s => step s l)) none = none := by
  induction lines with
  | nil => rfl
  | cons l rest ih => simpa using ih

/-- An invariant preserved by every successful step holds of the fold's
result. -/
theorem foldSteps_invariant {σ : Type} (step : σ → Str → Option σ)
    (P : List Str → σ → Prop)
    (hstep : ∀ pre st l st', P pre st → step st l = some st' → P (pre ++ [l]) st') :
    ∀ (lines pre : List Str) (st0 st : σ), P pre st0 →
      foldSteps step lines st0 = some st → P (pre ++ lines) st := by
  intro lines
  induction lines with
  | nil =>
    intro pre st0 st h0 hf
    simp only [foldSteps, List.foldl_nil, Option.some.injEq] at hf
    subst hf
    simpa using h0
  | cons l rest ih =>
    intro pre st0 st h0 hf
    simp only [foldSteps, List.foldl_cons, Option.some_bind] at hf
    cases hq : step st0 l with
    | none =>
      rw [hq] at hf
      rw [foldSteps_none] at hf
      cases hf
    | some st1 =>
      rw [hq] at hf
      have h1 := hstep pre st0 l st1 h0 hq
      have h2 := ih (pre ++ [l]) st1 st h1 (by simpa [foldSteps] using hf)
      simpa [List.append_assoc] using h2

/-- `filterMap` of the date field is unchanged by a date-preserving
`updLast`. -/
theorem filterMap_date_updLast {f : PHearing → PHearing}
    (hf : ∀ h, (f h).date = h.date) (l : List PHearing) :
    (updLast f l).filterMap PHearing.date = l.filterMap PHearing.date := by
  unfold updLast
  cases hq : l.getLast? with
  | none => rw [List.getLast?_eq_none_iff.mp hq]
  | some a =>
    conv_rhs => rw [← List.dropLast_append_getLast? a hq]
    rw [List.filterMap_append, List.filterMap_append]
    simp [List.filterMap_cons, hf]

/-- Every hearing after the first stays dated under a date-preserving
`updLast`. -/
theorem tail_dates_updLast {f : PHearing → PHearing}
    (hf : ∀ h, (f h).date = h.date) {l : List PHearing}
    (hl : ∀ h ∈ l.tail, h.date ≠ none) :
    ∀ h ∈ (updLast f l).tail, h.date ≠ none := by
  unfold updLast
  cases hq : l.getLast? with
  | none => simp
  | some a =>
    have hla : l = l.dropLast ++ [a] := (List.dropLast_append_getLast? a hq).symm
    cases hd : l.dropLast with
    | nil => simp
    | cons c d' =>
      rw [hd] at hla
      intro h hh
      simp only [List.cons_append, List.tail_cons] at hh
      rcases List.mem_append.mp hh with h1 | h2
      · apply hl
        rw [hla]
        simp only [List.cons_append, List.tail_cons]
        exact List.mem_append.mpr (Or.inl h1)
      · simp only [List.mem_singleton] at h2
        subst h2
        rw [hf a]
        apply hl
        rw [hla]
        simp only [List.cons_append, List.tail_cons]
        exact List.mem_append.mpr (Or.inr (by simp))

/-- The head surviving `dropWhile` fails the test. -/
theorem head_dropWhile_false {p : Char → Bool} :
    ∀ {l : Str} {c : Char} {t : Str}, l.dropWhile p = c :: t → p c = false := by
  intro l
  induction l with
  | nil => intro c t h; cases h
  | cons a l' ih =>
    intro c t h
    by_cases hp : p a = true
    · rw [List.dropWhile_cons_of_pos hp] at h
      exact ih h
    · rw [List.dropWhile_cons_of_neg hp] at h
      cases h
      simpa using hp

/-- A hearing-date line strips to a nonempty string (it contains the
day-of-week word). -/
theorem matchesHearing_pyStrip_ne {l : Str} (h : matchesHearing l = true) :
    pyStrip l ≠ [] := by
  intro hc
  have hrev : (l.dropWhile isPySpace).reverse.dropWhile isPySpace = [] := by
    have := congrArg List.reverse hc
    simpa [pyStrip] using this
  have hall : ∀ x ∈ l.dropWhile isPySpace, isPySpace x = true := by
    intro x hx
    exact List.dropWhile_eq_nil_iff.mp hrev x (by simpa using hx)
  have hdw : l.dropWhile isPySpace = [] := by
    cases hq : l.dropWhile isPySpace with
    | nil => rfl
    | cons c t =>
      have h1 : isPySpace c = false := head_dropWhile_false hq
      have h2 : isPySpace c = true := hall c (by rw [hq]; simp)
      rw [h1] at h2
      cases h2
  by_cases hq : l.takeWhile isPySpace = []
  · simp [matchesHearing, chompRun1, hq] at h
  · simp only [matchesHearing, chompRun1, hq, Bool.false_eq_true, if_false, hdw,
      Option.bind_eq_bind, Option.some_bind] at h
    rw [show dropAlt? dayAlts ([] : Str) = none from by decide] at h
    simp at h

/-- Each successful scanner step preserves the hearing-structure invariant. -/
theorem pstep_preserves_HearInv :
    ∀ (pre : List Str) (st : PSt) (l : Str) (st' : PSt),
      HearInv pre st → pstep st l = some st' → HearInv (pre ++ [l]) st' := by
  intro pre st l st' hinv hstep
  obtain ⟨hne, hinit, htail, hsub⟩ := hinv
  have hext : List.Sublist ((pre.filter matchesHearing).map pyStrip)
      (((pre ++ [l]).filter matchesHearing).map pyStrip) := by
    rw [List.filter_append, List.map_append]
    exact List.sublist_append_left _ _
  have hnot : ∀ s : PState,
      s = .HEARING ∨ s = .WITNESSES ∨ s = .CONTENT ∨ s = .SPEAKER →
      ¬(s = .START ∨ s = .DOCUMENT ∨ s = .COMMITTEE) := by
    rintro s (rfl | rfl | rfl | rfl) (h | h | h) <;> simp at h
  obtain ⟨s0, out0⟩ := st
  simp only [] at hne hinit htail hsub
  have hupd : ∀ (snew : PState) (f : PHearing → PHearing),
      (∀ h, (f h).date = h.date) →
      ¬(snew = .START ∨ snew = .DOCUMENT ∨ snew = .COMMITTEE) →
      HearInv (pre ++ [l]) ⟨snew, { out0 with hearings := updLast f out0.hearings }⟩ := by
    intro snew f hf hno
    refine ⟨updLast_ne_nil f _ hne, fun hin => absurd hin hno,
      tail_dates_updLast hf htail, ?_⟩
    show List.Sublist ((updLast f out0.hearings).filterMap PHearing.date) _
    rw [filterMap_date_updLast hf]
    exact hsub.trans hext
  cases s0 with
  | START =>
    have hph : out0.hearings = [emptyHearing] := hinit (Or.inl rfl)
    cases hq : matchDocument l with
    | some y =>
      simp only [pstep, hq, Option.some.injEq] at hstep
      subst hstep
      exact ⟨hne, fun _ => hph, htail, hsub.trans hext⟩
    | none =>
      simp only [pstep, hq, Option.some.injEq] at hstep
      subst hstep
      exact ⟨hne, fun _ => hph, htail, hsub.trans hext⟩
  | DOCUMENT =>
    have hph : out0.hearings = [emptyHearing] := hinit (Or.inr (Or.inl rfl))
    by_cases hcb : isCommitteeBeginP l = true
    · simp only [pstep, hcb, if_true, Option.some.injEq] at hstep
      subst hstep
      exact ⟨hne, fun _ => hph, htail, hsub.trans hext⟩
    · by_cases hmh : matchesHearing l = true
      · simp only [pstep, hcb, hmh, Bool.false_eq_true, if_false, if_true,
          Option.some.injEq] at hstep
        subst hstep
        refine ⟨?_, fun hin => absurd hin (hnot _ (Or.inl rfl)), ?_, ?_⟩
        · show updLast _ out0.hearings ≠ []
          exact updLast_ne_nil _ _ hne
        · show ∀ h ∈ (updLast _ out0.hearings).tail, h.date ≠ none
          rw [hph]
          simp [updLast]
        · show List.Sublist ((updLast _ out0.hearings).filterMap PHearing.date) _
          rw [hph]
          rw [show updLast (fun h => { h with date := some (pyStrip l) }) [emptyHearing] =
            [(⟨some (pyStrip l), [], []⟩ : PHearing)] from rfl]
          rw [List.filter_append, List.map_append]
          rw [show List.filter matchesHearing [l] = [l] from by simp [hmh]]
          exact List.sublist_append_right _ _
      · simp only [pstep, hcb, hmh, Bool.false_eq_true, if_false,
          Option.some.injEq] at hstep
        subst hstep
        exact ⟨hne, fun _ => hph, htail, hsub.trans hext⟩
  | COMMITTEE =>
    have hph : out0.hearings = [emptyHearing] := hinit (Or.inr (Or.inr rfl))
    by_cases hce : isCommitteeEndP l = true
    · simp only [pstep, hce, if_true, Option.some.injEq] at hstep
      subst hstep
      exact ⟨hne, fun _ => hph, htail, hsub.trans hext⟩
    · cases hpc : parseCommitteeLine l with
      | none => simp [pstep, hce, hpc] at hstep
      | some ms =>
        simp only [pstep, hce, Bool.false_eq_true, if_false, hpc,
          Option.some.injEq] at hstep
        subst hstep
        exact ⟨hne, fun _ => hph, htail, hsub.trans hext⟩
  | HEARING =>
    by_cases hwb : matchesWitnessBeginP l = true
    · simp only [pstep, hwb, if_true, Option.some.injEq] at hstep
      subst hstep
      exact ⟨hne, fun hin => absurd hin (hnot _ (Or.inr (Or.inl rfl))), htail,
        hsub.trans hext⟩
    · simp only [pstep, hwb, Bool.false_eq_true, if_false, Option.some.injEq] at hstep
      subst hstep
      exact ⟨hne, fun hin => absurd hin (hnot _ (Or.inl rfl)), htail, hsub.trans hext⟩
  | WITNESSES =>
    by_cases hwe : matchesWitnessEndP l = true
    · simp only [pstep, hwe, if_true, Option.some.injEq] at hstep
      subst hstep
      exact ⟨hne, fun hin => absurd hin (hnot _ (Or.inr (Or.inr (Or.inl rfl)))), htail,
        hsub.trans hext⟩
    · by_cases hnb : pyStrip l = []
      · simp only [pstep, hwe, Bool.false_eq_true, if_false, hnb, ne_eq,
          not_true_eq_false, Option.some.injEq] at hstep
        subst hstep
        exact ⟨hne, fun hin => absurd hin (hnot _ (Or.inr (Or.inl rfl))), htail,
          hsub.trans hext⟩
      · simp only [pstep, hwe, Bool.false_eq_true, if_false, hnb, ne_eq,
          not_false_eq_true, if_true, Option.some.injEq] at hstep
        subst hstep
        exact hupd _ _ (fun h => rfl) (hnot _ (Or.inr (Or.inl rfl)))
  | CONTENT =>
    by_cases hmh : matchesHearing l = true
    · simp only [pstep, hmh, if_true, Option.some.injEq] at hstep
      subst hstep
      rw [show updLast (fun h => { h with date := some (pyStrip l) })
          (out0.hearings ++ [emptyHearing]) =
          out0.hearings ++ [(⟨some (pyStrip l), [], []⟩ : PHearing)] from
          updLast_concat _ _ _]
      refine ⟨by simp, fun hin => absurd hin (hnot _ (Or.inl rfl)), ?_, ?_⟩
      · show ∀ h ∈ (out0.hearings ++ [(⟨some (pyStrip l), [], []⟩ : PHearing)]).tail,
            h.date ≠ none
        cases hcs : out0.hearings with
        | nil => exact absurd hcs hne
        | cons c d =>
          intro h hh
          simp only [List.cons_append, List.tail_cons] at hh
          rcases List.mem_append.mp hh with h1 | h2
          · exact htail h (by rw [hcs]; simpa using h1)
          · simp only [List.mem_singleton] at h2
            subst h2
            simp
      · show List.Sublist
            ((out0.hearings ++ [(⟨some (pyStrip l), [], []⟩ : PHearing)]).filterMap
              PHearing.date) _
        rw [List.filterMap_append, List.filter_append, List.map_append]
        rw [show List.filter matchesHearing [l] = [l] from by simp [hmh]]
        exact List.Sublist.append hsub (by simp)
    · cases hsp : matchSpeaker l with
      | some g =>
        obtain ⟨g1, g2, g4⟩ := g
        simp only [pstep, hmh, Bool.false_eq_true, if_false, hsp,
          Option.some.injEq] at hstep
        subst hstep
        exact hupd _ _ (fun h => rfl) (hnot _ (Or.inr (Or.inr (Or.inr rfl))))
      | none =>
        simp only [pstep, hmh, Bool.false_eq_true, if_false, hsp,
          Option.some.injEq] at hstep
        subst hstep
        exact ⟨hne, fun hin => absurd hin (hnot _ (Or.inr (Or.inr (Or.inl rfl)))), htail,
          hsub.trans hext⟩
  | SPEAKER =>
    by_cases hnb : pyStrip l = []
    · simp only [pstep, hnb, if_true, Option.some.injEq] at hstep
      subst hstep
      exact ⟨hne, fun hin => absurd hin (hnot _ (Or.inr (Or.inr (Or.inl rfl)))), htail,
        hsub.trans hext⟩
    · cases hsp : matchSpeaker l with
      | some g =>
        obtain ⟨g1, g2, g4⟩ := g
        simp only [pstep, hnb, if_false, hsp, Option.some.injEq] at hstep
        subst hstep
        exact hupd _ _ (fun h => rfl) (hnot _ (Or.inr (Or.inr (Or.inr rfl))))
      | none =>
        simp only [pstep, hnb, if_false, hsp, Option.some.injEq] at hstep
        subst hstep
        refine hupd _ _ ?_ (hnot _ (Or.inr (Or.inr (Or.inr rfl))))
        intro h
        by_cases hs : h.speakers ≠ [] <;> simp [hs]

/-- C2 (amended): for every document the Line-State Segmenter accepts, the
hearings list is nonempty; every hearing after the first carries a date;
the dates present form, in order, a sub-sequence of the stripped
hearing-date lines of the document (so each date equals a trimmed source
hearing-date line, in document order); and every date is non-empty.  The
sub-sequence can be proper: date lines read in the `HEARING`, `WITNESSES`
or `SPEAKER` states open no hearing (see the counterexample), and a
document with no date line keeps the single undated placeholder record. -/
theorem C2_hearing_structure (lines : List Str) (out : ParseOut)
    (hp : parseDocument lines = some out) :
    out.hearings ≠ [] ∧
    (∀ h ∈ out.hearings.tail, h.date ≠ none) ∧
    List.Sublist (out.hearings.filterMap PHearing.date)
      ((lines.filter matchesHearing).map pyStrip) ∧
    (∀ d ∈ out.hearings.filterMap PHearing.date, d ≠ []) := by
  obtain ⟨stF, hF, hout⟩ : ∃ stF,
      foldSteps pstep lines initPSt = some stF ∧ out = stF.out := by
    unfold parseDocument at hp
    cases hq : foldSteps pstep lines initPSt with
    | none => rw [hq] at hp; cases hp
    | some stF => rw [hq] at hp; exact ⟨stF, rfl, by simpa using hp.symm⟩
  subst hout
  have h0 : HearInv [] initPSt := by
    refine ⟨by simp [initPSt], fun _ => rfl, by simp [initPSt], ?_⟩
    simp [initPSt, emptyHearing]
  have hinv := foldSteps_invariant pstep HearInv pstep_preserves_HearInv
    lines [] initPSt stF h0 hF
  simp only [List.nil_append] at hinv
  obtain ⟨hne, _, htail, hsub⟩ := hinv
  refine ⟨hne, htail, hsub, ?_⟩
  intro d hd
  have hmem := hsub.subset hd
  obtain ⟨l', hl', rfl⟩ := List.mem_map.mp hmem
  exact matchesHearing_pyStrip_ne (List.mem_filter.mp hl').2

/-- Witness for C2 (amended), on the two-date counterexample document. -/
theorem C2_hearing_structure_witness :
    (⟨some (str "2020"), [],
      [⟨some (str "Monday, June 1, 2020."), [], []⟩]⟩ : ParseOut).hearings ≠ [] ∧
    (∀ h ∈ (⟨some (str "2020"), [],
      [⟨some (str "Monday, June 1, 2020."), [], []⟩]⟩ : ParseOut).hearings.tail,
      h.date ≠ none) ∧
    List.Sublist ((⟨some (str "2020"), [],
      [⟨some (str "Monday, June 1, 2020."), [], []⟩]⟩ : ParseOut).hearings.filterMap
        PHearing.date)
      ((docTwoDates.filter matchesHearing).map pyStrip) ∧
    (∀ d ∈ (⟨some (str "2020"), [],
      [⟨some (str "Monday, June 1, 2020."), [], []⟩]⟩ : ParseOut).hearings.filterMap
        PHearing.date, d ≠ []) :=
  C2_hearing_structure docTwoDates
    ⟨some (str "2020"), [], [⟨some (str "Monday, June 1, 2020."), [], []⟩]⟩ (by decide)
